import Mathlib

/-!
Shallow embedding of the configuration merge engine and variable resolver of
`openavmkit/utilities/settings.py`: the functions `_merge_settings`,
`_strip_flags`, `is_key_in`, `_replace_variables`, `_do_replace_variables`
and `_lookup_variable_in_settings`.

Trees are JSON-like values (Python dict / list / scalar).  Dicts are modelled
as insertion-ordered association lists, exactly as Python dicts behave for
the operations the source uses (`in`, indexing, item assignment, `del`,
`copy`, key iteration).  The Python source updates some structures in place;
the pure functions here return the updated value, and the recursions that are
not structural in the source (through evolving dict states) take an explicit
fuel argument standing for the Python call stack.  A separate store-based
model at the end of the file captures the in-place mutation itself, for the
claims about argument preservation.
-/

/-- A JSON-like tree node: Python `dict` / `list` / scalar
    (`str`, `int`, `bool`, `None`).  Mappings are insertion-ordered
    association lists, as Python dicts are. -/
inductive Node where
  | null : Node
  | bool : Bool → Node
  | num : Int → Node
  | str : String → Node
  | seq : List Node → Node
  | map : List (String × Node) → Node

/-- Association-list representation of a Python dict. -/
abbrev Dict := List (String × Node)

/-- Python `key in d` for a dict. -/
def dmem : Dict → String → Bool
  | [], _ => false
  | p :: rest, k => p.1 == k || dmem rest k

/-- Python `d[key]` for a dict (`none` when the key is absent). -/
def dget : Dict → String → Option Node
  | [], _ => none
  | p :: rest, k => if p.1 == k then some p.2 else dget rest k

/-- In-place value update for a present key (position kept). -/
def dsetIn : Dict → String → Node → Dict
  | [], _, _ => []
  | p :: rest, k, v => if p.1 == k then (k, v) :: dsetIn rest k v else p :: dsetIn rest k v

/-- Python `d[key] = v`: updates the value in place when the key is present
    (keeping its position), otherwise appends the new pair at the end. -/
def dset (d : Dict) (k : String) (v : Node) : Dict :=
  if dmem d k then dsetIn d k v else d ++ [(k, v)]

/-- Python `del d[key]`. -/
def ddel : Dict → String → Dict
  | [], _ => []
  | p :: rest, k => if p.1 == k then ddel rest k else p :: ddel rest k

mutual
/-- Python `==` on JSON values: dict comparison is order-insensitive
    (same length and every key of the left dict present on the right with an
    equal value), list comparison is positional, and `True == 1`,
    `False == 0` across `bool`/`int`. -/
def nodeEq : Node → Node → Bool
  | .null, .null => true
  | .bool a, .bool b => a == b
  | .bool a, .num b => (a && b == 1) || (!a && b == 0)
  | .num a, .bool b => (b && a == 1) || (!b && a == 0)
  | .num a, .num b => a == b
  | .str a, .str b => a == b
  | .seq xs, .seq ys => nodeEqList xs ys
  | .map xs, .map ys => xs.length == ys.length && nodeEqDict xs ys
  | _, _ => false

def nodeEqList : List Node → List Node → Bool
  | [], [] => true
  | x :: xs, y :: ys => nodeEq x y && nodeEqList xs ys
  | _, _ => false

def nodeEqDict : List (String × Node) → Dict → Bool
  | [], _ => true
  | (k, v) :: xs, ys =>
    (match dget ys k with
     | some w => nodeEq v w
     | none => false) && nodeEqDict xs ys
end

/-- Python `s.startswith(pre)`: a character-level prefix test.
    (`String.startsWith` itself does not evaluate inside the kernel, so the
    test is phrased over the underlying character lists.) -/
def pyStartsWith (s pre : String) : Bool :=
  pre.data.isPrefixOf s.data

/-- Python `s[n:]` and `str.drop`-style suffix: drop the first `n`
    characters.  (`String.drop` itself does not evaluate inside the kernel
    and is opaque to symbolic reasoning; this character-list version is
    neither.) -/
def pyDrop (s : String) (n : Nat) : String :=
  String.mk (s.data.drop n)

/-- Helper for `strContains`: does `needle` occur as a contiguous run of
    characters inside the second list? -/
def isSubChars (needle : List Char) : List Char → Bool
  | [] => needle.isEmpty
  | c :: cs => needle.isPrefixOf (c :: cs) || isSubChars needle cs

/-- Python `needle in hay` for strings (substring containment; the empty
    needle is contained in every string). -/
def strContains (hay needle : String) : Bool :=
  isSubChars needle.data hay.data

/-- Helper for `pySplitDot`: accumulate the current segment (reversed). -/
def splitDotAux : List Char → List Char → List String
  | [], acc => [String.mk acc.reverse]
  | c :: cs, acc =>
    if c == '.' then String.mk acc.reverse :: splitDotAux cs []
    else splitDotAux cs (c :: acc)

/-- Python `s.split(".")`, as `_lookup_variable_in_settings` applies it to a
    variable name: segments between dots, with `""` for empty segments and
    `[""]` for the empty string. -/
def pySplitDot (s : String) : List String :=
  splitDotAux s.data []

/-- `_lookup_variable_in_settings`: dotted-path descent, one segment at a
    time.  `.ok .null` is Python's `None`, returned both when a segment is
    missing from a dict and when the stored value is JSON `null` (the source
    cannot distinguish the two).  `.error ()` models the Python `TypeError`
    raised when `in` is applied to a non-container (`int`, `bool`, `None`)
    or when a matching segment is used to index a `list` or `str`. -/
def lookup_variable_in_settings : Node → List String → Except Unit Node
  | _, [] => .ok .null
  | s, first_bit :: rest =>
    match s with
    | .map d =>
      if dmem d first_bit then
        match dget d first_bit with
        | some v => if rest.isEmpty then .ok v else lookup_variable_in_settings v rest
        | none => .ok .null
      else .ok .null
    | .seq items =>
      if items.any (fun item => nodeEq item (.str first_bit)) then .error ()
      else .ok .null
    | .str v =>
      if strContains v first_bit then .error () else .ok .null
    | _ => .error ()

/-- Errors the resolver can raise: the `ValueError` for an unresolved
    variable (carrying the variable name), and the `TypeError` that a
    malformed dotted path can provoke inside the lookup. -/
inductive RErr where
  | varNotFound : String → RErr
  | typeError : RErr
deriving DecidableEq, Repr

mutual
/-- `_do_replace_variables`: one full pass over `node`, replacing every
    string that starts with the variable token `"$$"` by the value looked up
    in `settings`, and counting replacements.  A lookup that yields `None`
    (missing path or stored null) raises the unresolved-variable error. -/
def do_replace_variables : Node → Node → Except RErr (Node × Nat)
  | .str s, settings =>
    if pyStartsWith s "$$" then
      let var_name := pyDrop s 2
      match lookup_variable_in_settings settings (pySplitDot var_name) with
      | .error _ => .error .typeError
      | .ok .null => .error (.varNotFound var_name)
      | .ok v => .ok (v, 1)
    else .ok (.str s, 0)
  | .map d, settings => do
    let r ← do_replace_dict d settings
    .ok (.map r.1, r.2)
  | .seq items, settings => do
    let r ← do_replace_list items settings
    .ok (.seq r.1, r.2)
  | n, _ => .ok (n, 0)

/-- Dict case of `_do_replace_variables`: each value is processed in order;
    the replacement is written back only when the entry reported changes,
    mirroring the `_replacements` bookkeeping of the source. -/
def do_replace_dict : Dict → Node → Except RErr (Dict × Nat)
  | [], _ => .ok ([], 0)
  | (k, v) :: rest, settings => do
    let rv ← do_replace_variables v settings
    let rr ← do_replace_dict rest settings
    .ok ((k, if rv.2 > 0 then rv.1 else v) :: rr.1, rv.2 + rr.2)

/-- List case of `_do_replace_variables`. -/
def do_replace_list : List Node → Node → Except RErr (List Node × Nat)
  | [], _ => .ok ([], 0)
  | x :: rest, settings => do
    let rx ← do_replace_variables x settings
    let rr ← do_replace_list rest settings
    .ok ((if rx.2 > 0 then rx.1 else x) :: rr.1, rx.2 + rr.2)
end

/-- The `while changes > 0 and failsafe > 0` loop of `_replace_variables`.
    Returns the resulting tree, the number of passes performed, and whether
    the loop stopped because a pass made zero replacements (`true`) rather
    than by exhausting the failsafe (`false`). -/
def replace_loop : Nat → Node → Node → Except RErr (Node × Nat × Bool)
  | 0, result, _ => .ok (result, 0, false)
  | failsafe + 1, result, settings => do
    let r ← do_replace_variables result settings
    if r.2 > 0 then
      let rest ← replace_loop failsafe r.1 settings
      .ok (rest.1, rest.2.1 + 1, rest.2.2)
    else
      .ok (r.1, 1, true)

/-- `_replace_variables`: iterate passes to a fixed point, with the
    failsafe cap of 999 passes.  Lookups of every pass are performed against
    the original `settings` argument, which is what the source passes. -/
def replace_variables (settings : Node) : Except RErr Node :=
  (replace_loop 999 settings settings).map (fun r => r.1)

/-! ### Reachable variable tokens -/

mutual
/-- No reachable Scalar string in the tree begins with the variable token
    `"$$"` (as a Mapping value or Sequence element, at any depth). -/
def noVarStrings : Node → Bool
  | .str s => !(pyStartsWith s "$$")
  | .seq items => noVarList items
  | .map d => noVarDict d
  | _ => true

def noVarList : List Node → Bool
  | [] => true
  | x :: xs => noVarStrings x && noVarList xs

def noVarDict : Dict → Bool
  | [] => true
  | (_, v) :: xs => noVarStrings v && noVarDict xs
end

mutual
/-- A pass of `_do_replace_variables` that makes zero replacements returns
    its input unchanged, and that input holds no reachable `"$$"` string. -/
theorem do_replace_variables_zero :
    ∀ (n settings n' : Node), do_replace_variables n settings = .ok (n', 0) →
      n' = n ∧ noVarStrings n = true
  | .null, _, n' => by
    intro h
    simp only [do_replace_variables, Except.ok.injEq, Prod.mk.injEq] at h
    exact ⟨h.1.symm, rfl⟩
  | .bool b, _, n' => by
    intro h
    simp only [do_replace_variables, Except.ok.injEq, Prod.mk.injEq] at h
    exact ⟨h.1.symm, rfl⟩
  | .num i, _, n' => by
    intro h
    simp only [do_replace_variables, Except.ok.injEq, Prod.mk.injEq] at h
    exact ⟨h.1.symm, rfl⟩
  | .str s, settings, n' => by
    intro h
    simp only [do_replace_variables] at h
    split at h
    · split at h
      · simp at h
      · simp at h
      · simp at h
    · next hs =>
        have hs' : pyStartsWith s "$$" = false := by simpa using hs
        simp only [Except.ok.injEq, Prod.mk.injEq] at h
        exact ⟨h.1.symm, by simp [noVarStrings, hs']⟩
  | .seq items, settings, n' => by
    intro h
    simp only [do_replace_variables, bind, Except.bind] at h
    rcases hr : do_replace_list items settings with e | r
    · rw [hr] at h; exact absurd h (by simp)
    · obtain ⟨items2, c⟩ := r
      rw [hr] at h
      simp only [Except.ok.injEq, Prod.mk.injEq] at h
      obtain ⟨h1, h2⟩ := h
      subst h2
      obtain ⟨hl, hv⟩ := do_replace_list_zero items settings items2 hr
      exact ⟨by rw [← h1, hl], by simp [noVarStrings, hv]⟩
  | .map d, settings, n' => by
    intro h
    simp only [do_replace_variables, bind, Except.bind] at h
    rcases hr : do_replace_dict d settings with e | r
    · rw [hr] at h; exact absurd h (by simp)
    · obtain ⟨d2, c⟩ := r
      rw [hr] at h
      simp only [Except.ok.injEq, Prod.mk.injEq] at h
      obtain ⟨h1, h2⟩ := h
      subst h2
      obtain ⟨hl, hv⟩ := do_replace_dict_zero d settings d2 hr
      exact ⟨by rw [← h1, hl], by simp [noVarStrings, hv]⟩

theorem do_replace_list_zero :
    ∀ (items : List Node) (settings : Node) (items' : List Node),
      do_replace_list items settings = .ok (items', 0) →
      items' = items ∧ noVarList items = true
  | [], _, items' => by
    intro h
    simp only [do_replace_list, Except.ok.injEq, Prod.mk.injEq] at h
    exact ⟨h.1.symm, rfl⟩
  | x :: rest, settings, items' => by
    intro h
    simp only [do_replace_list, bind, Except.bind] at h
    rcases hx : do_replace_variables x settings with e | rx
    · rw [hx] at h; exact absurd h (by simp)
    · obtain ⟨x2, cx⟩ := rx
      rw [hx] at h
      rcases hr : do_replace_list rest settings with e | rr
      · rw [hr] at h; exact absurd h (by simp)
      · obtain ⟨rest2, cr⟩ := rr
        rw [hr] at h
        simp only [Except.ok.injEq, Prod.mk.injEq] at h
        obtain ⟨h1, h2⟩ := h
        have hx0 : cx = 0 := by omega
        have hr0 : cr = 0 := by omega
        subst hx0; subst hr0
        obtain ⟨hxe, hxv⟩ := do_replace_variables_zero x settings x2 hx
        obtain ⟨hre, hrv⟩ := do_replace_list_zero rest settings rest2 hr
        constructor
        · rw [← h1, hre]; simp
        · simp [noVarList, hxv, hrv]

theorem do_replace_dict_zero :
    ∀ (d : Dict) (settings : Node) (d' : Dict),
      do_replace_dict d settings = .ok (d', 0) →
      d' = d ∧ noVarDict d = true
  | [], _, d' => by
    intro h
    simp only [do_replace_dict, Except.ok.injEq, Prod.mk.injEq] at h
    exact ⟨h.1.symm, rfl⟩
  | (k, v) :: rest, settings, d' => by
    intro h
    simp only [do_replace_dict, bind, Except.bind] at h
    rcases hx : do_replace_variables v settings with e | rv
    · rw [hx] at h; exact absurd h (by simp)
    · obtain ⟨v2, cv⟩ := rv
      rw [hx] at h
      rcases hr : do_replace_dict rest settings with e | rr
      · rw [hr] at h; exact absurd h (by simp)
      · obtain ⟨rest2, cr⟩ := rr
        rw [hr] at h
        simp only [Except.ok.injEq, Prod.mk.injEq] at h
        obtain ⟨h1, h2⟩ := h
        have hx0 : cv = 0 := by omega
        have hr0 : cr = 0 := by omega
        subst hx0; subst hr0
        obtain ⟨hxe, hxv⟩ := do_replace_variables_zero v settings v2 hx
        obtain ⟨hre, hrv⟩ := do_replace_dict_zero rest settings rest2 hr
        constructor
        · rw [← h1, hre]; simp
        · simp [noVarDict, hxv, hrv]
end

/-! ### Pass counting and the failsafe -/

/-- The number of passes `replace_loop` performs never exceeds its failsafe. -/
theorem replace_loop_passes_le :
    ∀ (fuel : Nat) (cur settings : Node) (r : Node × Nat × Bool),
      replace_loop fuel cur settings = .ok r → r.2.1 ≤ fuel
  | 0, cur, _, r => by
    intro h
    simp only [replace_loop, Except.ok.injEq] at h
    subst h
    exact Nat.le_refl 0
  | fuel + 1, cur, settings, r => by
    intro h
    rcases hp : do_replace_variables cur settings with e | p
    · simp only [replace_loop, bind, Except.bind, hp] at h
      exact Except.noConfusion h
    · obtain ⟨r1, c⟩ := p
      simp only [replace_loop, bind, Except.bind, hp] at h
      split at h
      · rcases hl : replace_loop fuel r1 settings with e | rest
        · simp only [hl, Except.bind] at h
          exact Except.noConfusion h
        · obtain ⟨rr, n, b⟩ := rest
          simp only [hl, Except.ok.injEq] at h
          subst h
          have := replace_loop_passes_le fuel r1 settings (rr, n, b) hl
          simp only at this ⊢
          omega
      · simp only [Except.ok.injEq] at h
        subst h
        simp only
        omega

/-- A run of `replace_loop` that stops at a fixed point (a pass with zero
    replacements) leaves no reachable `"$$"` string in the result. -/
theorem replace_loop_fixpoint_noVar :
    ∀ (fuel : Nat) (cur settings r : Node) (n : Nat),
      replace_loop fuel cur settings = .ok (r, n, true) → noVarStrings r = true
  | 0, cur, _, r, n => by
    intro h
    simp only [replace_loop, Except.ok.injEq, Prod.mk.injEq] at h
    simp at h
  | fuel + 1, cur, settings, r, n => by
    intro h
    rcases hp : do_replace_variables cur settings with e | p
    · simp only [replace_loop, bind, Except.bind, hp] at h
      exact Except.noConfusion h
    · obtain ⟨r1, c⟩ := p
      simp only [replace_loop, bind, Except.bind, hp] at h
      split at h
      · rcases hl : replace_loop fuel r1 settings with e | rest
        · simp only [hl, Except.bind] at h
          exact Except.noConfusion h
        · obtain ⟨rr, n2, b⟩ := rest
          simp only [hl, Except.ok.injEq, Prod.mk.injEq] at h
          obtain ⟨h1, h2, h3⟩ := h
          rw [← h1]
          refine replace_loop_fixpoint_noVar fuel r1 settings rr n2 ?_
          rw [hl, h3]
      · next hc =>
          simp only [Except.ok.injEq, Prod.mk.injEq] at h
          obtain ⟨h1, h2, h3⟩ := h
          have hc0 : c = 0 := by omega
          subst hc0
          obtain ⟨he, hv⟩ := do_replace_variables_zero cur settings r1 hp
          rw [← h1, he]
          exact hv

/-! ### The reference cycle example -/

/-- The cyclic tree of the spec's bounded-cycle example. -/
def cycTree : Node := .map [("a", .str "$$b"), ("b", .str "$$a")]

/-- The cyclic tree after one pass (each reference takes one hop). -/
def cycTree2 : Node := .map [("a", .str "$$a"), ("b", .str "$$b")]

theorem cyc_pass1 : do_replace_variables cycTree cycTree = .ok (cycTree2, 2) := by rfl

theorem cyc_pass2 : do_replace_variables cycTree2 cycTree = .ok (cycTree, 2) := by rfl

/-- Every run of the resolver loop on the cyclic example returns normally
    (the passes oscillate with period two and never raise). -/
theorem cyc_loop_ok :
    ∀ fuel : Nat, (replace_loop fuel cycTree cycTree).isOk = true ∧
      (replace_loop fuel cycTree2 cycTree).isOk = true := by
  intro fuel
  induction fuel with
  | zero => exact ⟨rfl, rfl⟩
  | succ f ih =>
    constructor
    · rcases hv : replace_loop f cycTree2 cycTree with e | v
      · rw [hv] at ih; simp [Except.isOk, Except.toBool] at ih
      · simp only [replace_loop, bind, Except.bind, cyc_pass1, hv]
        simp [Except.isOk, Except.toBool]
    · rcases hv : replace_loop f cycTree cycTree with e | v
      · rw [hv] at ih; simp [Except.isOk, Except.toBool] at ih
      · simp only [replace_loop, bind, Except.bind, cyc_pass2, hv]
        simp [Except.isOk, Except.toBool]

/-! ### Claims C2, C3, C4, C5 -/

/-- C2: `Resolve` substitutes variable references by dotted-path lookup and
    iterates until chains are dereferenced: `{"a": {"c": 7}, "b": "$$a.c"}`
    resolves to `{"a": {"c": 7}, "b": 7}`, and
    `{"a": "$$b", "b": "$$c", "c": 5}` resolves over multiple passes to
    `{"a": 5, "b": 5, "c": 5}`. -/
theorem claim_C2 :
    replace_variables (.map [("a", .map [("c", .num 7)]), ("b", .str "$$a.c")]) =
        .ok (.map [("a", .map [("c", .num 7)]), ("b", .num 7)]) ∧
    replace_variables (.map [("a", .str "$$b"), ("b", .str "$$c"), ("c", .num 5)]) =
        .ok (.map [("a", .num 5), ("b", .num 5), ("c", .num 5)]) :=
  ⟨by rfl, by rfl⟩

/-- C3 (amended): for a reference string `"$$" ++ var_name`, the pass
    replaces it by the looked-up value whenever the dotted-path lookup yields
    a non-null value, and raises the unresolved-variable error naming the
    variable exactly when the lookup yields `None` — which happens both when
    a path segment is missing at a Mapping and when the stored value is JSON
    null, the two being indistinguishable to the source; a lookup that
    strays into a Sequence or Scalar interior raises a type error instead. -/
theorem claim_C3 :
    ∀ (settings : Node) (s var_name : String),
      pyStartsWith s "$$" = true → pyDrop s 2 = var_name →
      ((∀ v : Node,
          lookup_variable_in_settings settings (pySplitDot var_name) = .ok v →
          v ≠ .null →
          do_replace_variables (.str s) settings = .ok (v, 1)) ∧
       (lookup_variable_in_settings settings (pySplitDot var_name) = .ok .null →
          do_replace_variables (.str s) settings = .error (.varNotFound var_name)) ∧
       (lookup_variable_in_settings settings (pySplitDot var_name) = .error () →
          do_replace_variables (.str s) settings = .error .typeError)) := by
  intro settings s var_name hs hdrop
  subst hdrop
  refine ⟨?_, ?_, ?_⟩
  · intro v hl hv
    simp only [do_replace_variables, hs, if_true, hl]
  · intro hl
    simp only [do_replace_variables, hs, if_true, hl]
  · intro hl
    simp only [do_replace_variables, hs, if_true, hl]

/-- C3 counterexample: in `{"a": null, "b": "$$a"}` the dotted path `a`
    leads to a value present in the tree (the null Scalar), yet resolution
    raises the unresolved-variable error for it, contradicting the claim
    that a path leading to a value never raises. -/
theorem claim_C3_counterexample :
    dget [("a", Node.null), ("b", Node.str "$$a")] "a" = some Node.null ∧
    replace_variables (.map [("a", .null), ("b", .str "$$a")]) =
      .error (.varNotFound "a") :=
  ⟨rfl, by rfl⟩

/-- C4: whenever the resolver loop returns because a full pass performed
    zero replacements (fixed point reached), no reachable Scalar string in
    the returned tree begins with `"$$"`. -/
theorem claim_C4 :
    ∀ (settings r : Node) (n : Nat),
      replace_loop 999 settings settings = .ok (r, n, true) →
      noVarStrings r = true :=
  fun settings r n h => replace_loop_fixpoint_noVar 999 settings settings r n h

/-- C4 witness: a concrete fixed-point run. -/
theorem claim_C4_witness :
    replace_loop 999 (.map [("a", .num 10), ("b", .str "$$a")])
        (.map [("a", .num 10), ("b", .str "$$a")]) =
      .ok (.map [("a", .num 10), ("b", .num 10)], 2, true) ∧
    noVarStrings (.map [("a", .num 10), ("b", .num 10)]) = true :=
  ⟨by rfl,
   claim_C4 (.map [("a", .num 10), ("b", .str "$$a")])
     (.map [("a", .num 10), ("b", .num 10)]) 2 (by rfl)⟩

/-- C5: `Resolve` performs at most 999 full passes, stopping at the first
    zero-replacement pass or when the cap runs out, and exhausting the cap
    raises no error: the cyclic tree `{"a": "$$b", "b": "$$a"}` terminates
    normally. -/
theorem claim_C5 :
    (∀ (settings : Node) (r : Node × Nat × Bool),
        replace_loop 999 settings settings = .ok r → r.2.1 ≤ 999) ∧
    (replace_variables cycTree).isOk = true := by
  constructor
  · exact fun settings r h => replace_loop_passes_le 999 settings settings r h
  · have h := (cyc_loop_ok 999).1
    rcases hv : replace_loop 999 cycTree cycTree with e | v
    · rw [hv] at h; simp [Except.isOk, Except.toBool] at h
    · simp [replace_variables, hv, Except.map, Except.isOk, Except.toBool]

/-- C5 witness: a concrete run of the loop, with the pass-count bound
    discharged at it. -/
theorem claim_C5_witness :
    replace_loop 999 Node.null Node.null = .ok (Node.null, 1, true) ∧
    (1 : Nat) ≤ 999 :=
  ⟨by rfl, claim_C5.1 Node.null (Node.null, 1, true) (by rfl)⟩

/-! ### The merge engine -/

/-- `is_key_in`: does the dict hold `key` under one of the three flag
    spellings `+key`, `!key`, `key` (tried in that order)?  Returns the
    matching flag. -/
def is_key_in (object : Dict) (key : String) : Bool × String :=
  if dmem object ("+" ++ key) then (true, "+")
  else if dmem object ("!" ++ key) then (true, "!")
  else if dmem object key then (true, "")
  else (false, "")

mutual
/-- `_strip_flags`: remove one leading `+`/`!` from every key of a dict,
    recursively.  The fuel argument stands for the Python call stack and
    bounds every recursion here (the source recursion is not structural
    because dict values evolve while the snapshot of keys is iterated);
    `none` is the out-of-fuel artefact, never a behaviour of the source. -/
def strip_flags : Nat → Node → Option Node
  | 0, _ => none
  | fuel + 1, .seq items => do
    let items2 ← strip_list_items fuel items
    some (.seq items2)
  | fuel + 1, .map d => do
    let d2 ← strip_dict_loop fuel (d.map (fun p => p.1)) d
    some (.map d2)
  | _ + 1, n => some n

/-- The list handling of `_strip_flags`: only dict and list items are
    recursed into. -/
def strip_list_items : Nat → List Node → Option (List Node)
  | 0, _ => none
  | _ + 1, [] => some []
  | fuel + 1, item :: rest =>
    match item with
    | .seq _ => do
      let item2 ← strip_flags fuel item
      let rest2 ← strip_list_items fuel rest
      some (item2 :: rest2)
    | .map _ => do
      let item2 ← strip_flags fuel item
      let rest2 ← strip_list_items fuel rest
      some (item2 :: rest2)
    | _ => do
      let rest2 ← strip_list_items fuel rest
      some (item :: rest2)

/-- The dict body of `_strip_flags`: iterate the snapshot of the original
    keys over the evolving dict.  A flagged key is renamed (its value is
    written over the one-character-shorter spelling, then the flagged key is
    deleted), then the entry is recursed into and written back under the
    final key. -/
def strip_dict_loop : Nat → List String → Dict → Option Dict
  | 0, _, _ => none
  | _ + 1, [], st => some st
  | fuel + 1, key_ :: rest, st =>
    if dmem st key_ then
      match dget st key_ with
      | none => strip_dict_loop fuel rest st
      | some entry =>
        let flagged := pyStartsWith key_ "+" || pyStartsWith key_ "!"
        let key := if flagged then pyDrop key_ 1 else key_
        let st1 := if flagged then ddel (dset st key entry) key_ else st
        match entry with
        | .map _ => do
          let entry2 ← strip_flags fuel entry
          strip_dict_loop fuel rest (dset st1 key entry2)
        | .seq items => do
          let items2 ← strip_list_items fuel items
          strip_dict_loop fuel rest (dset st1 key (.seq items2))
        | _ => strip_dict_loop fuel rest (dset st1 key entry)
    else strip_dict_loop fuel rest st
end

/-- `_strip_flags` applied to a dict, as `_merge_settings` calls it. -/
def strip_flags_dict : Nat → Dict → Option Dict
  | 0, _ => none
  | fuel + 1, d => strip_dict_loop fuel (d.map (fun p => p.1)) d

/-- The sequence-augment of `_merge_settings`: append to the template list
    every local item not already contained (Python `in`, value equality)
    in the list built so far. -/
def augment_list (entry_t entry_l : List Node) : List Node :=
  entry_l.foldl
    (fun acc item => if acc.any (fun x => nodeEq x item) then acc else acc ++ [item])
    entry_t

/-- Errors of the merge model: `keyError` marks the only unguarded dict
    access of the source (`template[local_key]`), `outOfFuel` is the fuel
    artefact standing for the Python call stack. -/
inductive MErr where
  | keyError : MErr
  | outOfFuel : MErr
deriving DecidableEq

mutual
/-- `_merge_settings`: start from a copy of the template, fold the local
    entries into it, then strip flags.  Fuel stands for the Python call
    stack, as in `strip_flags`. -/
def merge_settings : Nat → Dict → Dict → Except MErr Dict
  | 0, _, _ => .error .outOfFuel
  | fuel + 1, template, local_ => do
    let merged ← merge_loop fuel template template local_
    match strip_flags_dict (fuel + 1) merged with
    | some m => .ok m
    | none => .error .outOfFuel

/-- The `for key_ in local` loop of `_merge_settings`. -/
def merge_loop : Nat → Dict → Dict → List (String × Node) → Except MErr Dict
  | 0, _, _, _ => .error .outOfFuel
  | _ + 1, _, merged, [] => .ok merged
  | fuel + 1, template, merged, (key_, entry_l) :: rest =>
    let local_stomps := pyStartsWith key_ "!"
    let key := if local_stomps then pyDrop key_ 1 else key_
    let ks := is_key_in template key
    if ks.1 then
      let flag := ks.2
      let local_key := flag ++ key
      if local_stomps then
        let merged1 := dset merged key entry_l
        let merged2 :=
          if flag != "" && dmem merged1 local_key then ddel merged1 local_key
          else merged1
        merge_loop fuel template merged2 rest
      else
        match dget template local_key with
        | none => .error .keyError
        | some entry_t => do
          let add_template := !local_stomps && flag == "+"
          let merged1 ←
            match entry_t, entry_l with
            | .map t2, .map l2 => do
              let m2 ← merge_settings fuel t2 l2
              pure (dset merged key (.map m2))
            | .seq ts, .seq ls =>
              if add_template then pure (dset merged key (.seq (augment_list ts ls)))
              else pure (dset merged key (.seq ls))
            | _, _ => pure (dset merged key entry_l)
          let merged2 :=
            if flag != "" && dmem merged1 local_key then ddel merged1 local_key
            else merged1
          merge_loop fuel template merged2 rest
    else
      merge_loop fuel template (dset merged key entry_l) rest
end

/-! ### String helper lemmas for flag spellings -/

theorem pyDrop_one_plus (k : String) : pyDrop ("+" ++ k) 1 = k := by
  show String.mk (("+" ++ k).data.drop 1) = k
  rw [String.data_append]
  rfl

theorem pyDrop_one_bang (k : String) : pyDrop ("!" ++ k) 1 = k := by
  show String.mk (("!" ++ k).data.drop 1) = k
  rw [String.data_append]
  rfl

theorem pyStartsWith_plus_append (k : String) : pyStartsWith ("+" ++ k) "+" = true := by
  show ("+".data.isPrefixOf ("+" ++ k).data) = true
  rw [String.data_append]
  simp [List.isPrefixOf]

theorem pyStartsWith_bang_append (k : String) : pyStartsWith ("!" ++ k) "!" = true := by
  show ("!".data.isPrefixOf ("!" ++ k).data) = true
  rw [String.data_append]
  simp [List.isPrefixOf]

theorem pyStartsWith_plus_append_bang (k : String) :
    pyStartsWith ("+" ++ k) "!" = false := by
  show ("!".data.isPrefixOf ("+" ++ k).data) = false
  rw [String.data_append]
  simp [List.isPrefixOf]

theorem pyStartsWith_bang_append_plus (k : String) :
    pyStartsWith ("!" ++ k) "+" = false := by
  show ("+".data.isPrefixOf ("!" ++ k).data) = false
  rw [String.data_append]
  simp [List.isPrefixOf]

theorem plus_append_ne (k : String) : ("+" ++ k) ≠ k := by
  intro h
  have := congrArg (fun s => s.data.length) h
  simp [String.data_append] at this

theorem bang_append_ne (k : String) : ("!" ++ k) ≠ k := by
  intro h
  have := congrArg (fun s => s.data.length) h
  simp [String.data_append] at this

theorem plus_bang_append_ne (k k2 : String) : ("+" ++ k) ≠ ("!" ++ k2) := by
  intro h
  have := congrArg (fun s => s.data.headD ' ') h
  simp [String.data_append] at this

/-- Scalar (non-container) nodes: Python values that `_strip_flags` leaves
    untouched and never recurses into. -/
def isScalarNode : Node → Bool
  | .null => true
  | .bool _ => true
  | .num _ => true
  | .str _ => true
  | .seq _ => false
  | .map _ => false

/-- C7: merging the empty local mapping over any template returns exactly
    the template with flags stripped: `Merge(T, {})` is `_strip_flags(T)`
    (under any sufficient call-stack fuel; the `none`/`outOfFuel` branch is
    the fuel artefact of the model). -/
theorem claim_C7 :
    ∀ (fuel : Nat) (t : Dict),
      merge_settings (fuel + 2) t [] =
        match strip_flags_dict (fuel + 2) t with
        | some m => .ok m
        | none => .error .outOfFuel := by
  intro fuel t
  rfl

/-! ### Dict operation lemmas -/

theorem dmem_iff_mem_keys (d : Dict) (k : String) :
    dmem d k = true ↔ k ∈ d.map Prod.fst := by
  induction d with
  | nil => simp [dmem]
  | cons p rest ih =>
    simp only [dmem, Bool.or_eq_true, beq_iff_eq, List.map_cons, List.mem_cons, ih]
    exact or_congr ⟨fun h => h.symm, fun h => h.symm⟩ Iff.rfl

theorem dget_some_dmem {d : Dict} {k : String} {v : Node} (h : dget d k = some v) :
    dmem d k = true := by
  induction d with
  | nil => simp [dget] at h
  | cons p rest ih =>
    simp only [dget] at h
    simp only [dmem]
    cases hp : p.1 == k
    · rw [hp] at h
      simp at h
      simp [ih h]
    · simp

theorem dget_none_not_dmem {d : Dict} {k : String} (h : dget d k = none) :
    dmem d k = false := by
  induction d with
  | nil => rfl
  | cons p rest ih =>
    simp only [dget] at h
    simp only [dmem]
    cases hp : p.1 == k
    · rw [hp] at h
      simp at h
      simp [ih h]
    · rw [hp] at h
      simp at h

theorem dget_dsetIn_self (d : Dict) (k : String) (v : Node) (hm : dmem d k = true) :
    dget (dsetIn d k v) k = some v := by
  induction d with
  | nil => simp [dmem] at hm
  | cons p rest ih =>
    simp only [dsetIn]
    cases hp : p.1 == k
    · simp only [Bool.false_eq_true, if_false, dget, hp]
      simp only [dmem, hp, Bool.false_or] at hm
      simp [ih hm]
    · simp [dget]

theorem dget_append_right (d : Dict) (k : String) (v : Node) (hm : dmem d k = false) :
    dget (d ++ [(k, v)]) k = some v := by
  induction d with
  | nil => simp [dget]
  | cons p rest ih =>
    simp only [dmem, Bool.or_eq_false_iff] at hm
    simp only [List.cons_append, dget, hm.1]
    simp [ih hm.2]

theorem dget_dset_self (d : Dict) (k : String) (v : Node) :
    dget (dset d k v) k = some v := by
  cases hm : dmem d k
  · simp only [dset, hm, Bool.false_eq_true, if_false]
    exact dget_append_right d k v hm
  · simp only [dset, hm, if_true]
    exact dget_dsetIn_self d k v hm

theorem dget_dsetIn_ne (d : Dict) (k k2 : String) (v : Node) (h : k2 ≠ k) :
    dget (dsetIn d k2 v) k = dget d k := by
  have hb : (k2 == k) = false := beq_eq_false_iff_ne.mpr h
  induction d with
  | nil => rfl
  | cons p rest ih =>
    simp only [dsetIn]
    cases hp : p.1 == k2
    · simp only [Bool.false_eq_true, if_false, dget]
      cases hpk : p.1 == k
      · simp [hpk, ih]
      · simp [hpk]
    · have hp1 : p.1 = k2 := by simpa using hp
      have hk : (p.1 == k) = false := by rw [hp1]; exact hb
      simp only [if_true, dget, hb, hk]
      simp [ih]

theorem dget_dset_ne (d : Dict) (k k2 : String) (v : Node) (h : k2 ≠ k) :
    dget (dset d k2 v) k = dget d k := by
  have hb : (k2 == k) = false := beq_eq_false_iff_ne.mpr h
  cases hm : dmem d k2
  · simp only [dset, hm, Bool.false_eq_true, if_false]
    induction d with
    | nil => simp [dget, hb]
    | cons p rest ih =>
      simp only [dmem, Bool.or_eq_false_iff] at hm
      simp only [List.cons_append, dget]
      cases hpk : p.1 == k
      · simp [hpk, ih hm.2]
      · simp [hpk]
  · simp only [dset, hm, if_true]
    exact dget_dsetIn_ne d k k2 v h

theorem dget_ddel_ne (d : Dict) (k k2 : String) (h : k2 ≠ k) :
    dget (ddel d k) k2 = dget d k2 := by
  induction d with
  | nil => rfl
  | cons p rest ih =>
    simp only [ddel]
    cases hp : p.1 == k
    · simp only [Bool.false_eq_true, if_false, dget]
      cases hpk : p.1 == k2
      · simp [hpk, ih]
      · simp [hpk]
    · have hp1 : p.1 = k := by simpa using hp
      have h2 : (p.1 == k2) = false := by
        rw [hp1]; exact beq_eq_false_iff_ne.mpr (Ne.symm h)
      simp only [if_true, dget, h2]
      simp [ih]

theorem dmem_ddel_self (d : Dict) (k : String) : dmem (ddel d k) k = false := by
  induction d with
  | nil => rfl
  | cons p rest ih =>
    simp only [ddel]
    cases hp : p.1 == k
    · simp only [Bool.false_eq_true, if_false, dmem, hp]
      simp [ih]
    · simp [ih]

theorem dsetIn_not_dmem (d : Dict) (k : String) (v : Node) (hm : dmem d k = false) :
    dsetIn d k v = d := by
  induction d with
  | nil => rfl
  | cons p rest ih =>
    simp only [dmem, Bool.or_eq_false_iff] at hm
    simp only [dsetIn, hm.1]
    simp [ih hm.2]

theorem dmem_dsetIn_eq (d : Dict) (k k2 : String) (v : Node) :
    dmem (dsetIn d k2 v) k = (dmem d k || (dmem d k2 && (k2 == k))) := by
  induction d with
  | nil => simp [dmem, dsetIn]
  | cons p rest ih =>
    simp only [dsetIn]
    cases hp : p.1 == k2
    · simp only [Bool.false_eq_true, if_false, dmem, ih, hp]
      cases hpk : p.1 == k <;> cases dmem rest k <;> cases dmem rest k2 <;> simp
    · have hp1 : p.1 = k2 := by simpa using hp
      simp only [if_true, dmem, ih, hp, hp1]
      cases hk : k2 == k <;> cases dmem rest k <;> cases dmem rest k2 <;> simp

theorem dmem_dset_ne (d : Dict) (k k2 : String) (v : Node) (h : k2 ≠ k) :
    dmem (dset d k2 v) k = dmem d k := by
  have hb : (k2 == k) = false := beq_eq_false_iff_ne.mpr h
  cases hm : dmem d k2
  · simp only [dset, hm, Bool.false_eq_true, if_false]
    induction d with
    | nil => simp [dmem, hb]
    | cons p rest ih =>
      simp only [dmem, Bool.or_eq_false_iff] at hm
      simp only [List.cons_append, dmem]
      cases hpk : p.1 == k
      · simp [hpk, ih hm.2]
      · simp [hpk]
  · simp only [dset, hm, if_true]
    rw [dmem_dsetIn_eq, hm, hb]
    simp

theorem dmem_dset_self (d : Dict) (k : String) (v : Node) :
    dmem (dset d k v) k = true :=
  dget_some_dmem (dget_dset_self d k v)

theorem dmem_ddel_ne (d : Dict) (k k2 : String) (h : k2 ≠ k) :
    dmem (ddel d k) k2 = dmem d k2 := by
  induction d with
  | nil => rfl
  | cons p rest ih =>
    simp only [ddel]
    cases hp : p.1 == k
    · simp only [Bool.false_eq_true, if_false, dmem, ih]
    · have hp1 : p.1 = k := by simpa using hp
      have h2 : (p.1 == k2) = false := by
        rw [hp1]; exact beq_eq_false_iff_ne.mpr (Ne.symm h)
      simp only [if_true, dmem, h2, Bool.false_or, ih]

/-! ### Key-list lemmas and rename characterization -/

theorem keys_dsetIn (d : Dict) (k : String) (v : Node) :
    (dsetIn d k v).map Prod.fst = d.map Prod.fst := by
  induction d with
  | nil => rfl
  | cons p rest ih =>
    simp only [dsetIn]
    cases hp : p.1 == k
    · simp [ih]
    · have hp1 : p.1 = k := by simpa using hp
      simp [ih, hp1]

theorem ddel_sublist (d : Dict) (k : String) : (ddel d k).Sublist d := by
  induction d with
  | nil => simp [ddel]
  | cons p rest ih =>
    simp only [ddel]
    cases hp : p.1 == k
    · simp only [Bool.false_eq_true, if_false]
      exact ih.cons₂ p
    · simp only [if_true]
      exact ih.cons p

theorem keys_dset_nodup (d : Dict) (k : String) (v : Node)
    (h : (d.map Prod.fst).Nodup) : ((dset d k v).map Prod.fst).Nodup := by
  cases hm : dmem d k
  · simp only [dset, hm, Bool.false_eq_true, if_false, List.map_append]
    simp only [List.nodup_append, List.map_cons]
    refine ⟨h, by simp, ?_⟩
    intro a ha hb
    simp at hb
    subst hb
    exact absurd ((dmem_iff_mem_keys d a).mpr ha) (by simp [hm])
  · simp only [dset, hm, if_true, keys_dsetIn]
    exact h

theorem keys_ddel_nodup (d : Dict) (k : String)
    (h : (d.map Prod.fst).Nodup) : ((ddel d k).map Prod.fst).Nodup :=
  ((ddel_sublist d k).map Prod.fst).nodup h

/-- A key whose one-character drop is `k` and which starts with a flag is
    exactly one of the two flagged spellings of `k`. -/
theorem flagged_rename_eq (k2 k : String)
    (hf : (pyStartsWith k2 "+" || pyStartsWith k2 "!") = true)
    (hd : pyDrop k2 1 = k) :
    k2 = "+" ++ k ∨ k2 = "!" ++ k := by
  have hdata : k2.data.drop 1 = k.data := by
    have h2 := congrArg String.data hd
    simpa [pyDrop] using h2
  rcases (Bool.or_eq_true _ _).mp hf with h | h
  · left
    cases hk2 : k2.data with
    | nil =>
      rw [pyStartsWith, hk2] at h
      simp [List.isPrefixOf] at h
    | cons c cs =>
      rw [pyStartsWith, hk2] at h
      simp only [List.isPrefixOf, Bool.and_eq_true] at h
      have hc : c = '+' := by
        have h1 : '+' = c := by simpa using h.1
        exact h1.symm
      rw [hk2] at hdata
      simp only [List.drop_one, List.tail_cons] at hdata
      have : k2.data = ("+" ++ k).data := by
        rw [String.data_append, hk2, hc, hdata]
        rfl
      exact String.ext this
  · right
    cases hk2 : k2.data with
    | nil =>
      rw [pyStartsWith, hk2] at h
      simp [List.isPrefixOf] at h
    | cons c cs =>
      rw [pyStartsWith, hk2] at h
      simp only [List.isPrefixOf, Bool.and_eq_true] at h
      have hc : c = '!' := by
        have h1 : '!' = c := by simpa using h.1
        exact h1.symm
      rw [hk2] at hdata
      simp only [List.drop_one, List.tail_cons] at hdata
      have : k2.data = ("!" ++ k).data := by
        rw [String.data_append, hk2, hc, hdata]
        rfl
      exact String.ext this

/-- Iterating keys that are neither `k` nor a flagged spelling renaming to
    `k` leaves the entry at `k` untouched; the loop can be split at any
    point of the key list. -/
theorem strip_dict_loop_split_prefix :
    ∀ (fuel : Nat) (pre rest : List String) (st st' : Dict) (k : String),
      strip_dict_loop fuel (pre ++ rest) st = some st' →
      (∀ k2 ∈ pre, k2 ≠ k ∧
        ¬((pyStartsWith k2 "+" || pyStartsWith k2 "!") = true ∧ pyDrop k2 1 = k)) →
      ∃ f stmid, strip_dict_loop f rest stmid = some st' ∧ dget stmid k = dget st k
  | fuel, [], rest, st, st', k => by
    intro h _
    exact ⟨fuel, st, h, rfl⟩
  | 0, key_ :: pre, rest, st, st', k => by
    intro h _
    simp [strip_dict_loop] at h
  | fuel + 1, key_ :: pre, rest, st, st', k => by
    intro h hc
    obtain ⟨hne, hnr⟩ := hc key_ (List.mem_cons_self _ _)
    have hrec : ∀ (st2 : Dict), strip_dict_loop fuel (pre ++ rest) st2 = some st' →
        dget st2 k = dget st k →
        ∃ f stmid, strip_dict_loop f rest stmid = some st' ∧ dget stmid k = dget st k := by
      intro st2 h2 hd2
      obtain ⟨f, stmid, hf, hdm⟩ := strip_dict_loop_split_prefix fuel pre rest st2 st' k h2
        (fun k2 hk2 => hc k2 (List.mem_cons_of_mem _ hk2))
      exact ⟨f, stmid, hf, hdm.trans hd2⟩
    simp only [List.cons_append, strip_dict_loop] at h
    cases hmem : dmem st key_
    · rw [hmem] at h
      simp only [Bool.false_eq_true, if_false] at h
      exact hrec st h rfl
    · rw [hmem] at h
      simp only [if_true] at h
      rcases hget : dget st key_ with _ | entry
      · rw [hget] at h
        exact hrec st h rfl
      · rw [hget] at h
        cases hfl : (pyStartsWith key_ "+" || pyStartsWith key_ "!")
        · rw [hfl] at h
          simp only [Bool.false_eq_true, if_false] at h
          have hset : ∀ (x : Node), dget (dset st key_ x) k = dget st k :=
            fun x => dget_dset_ne st k key_ x hne
          cases entry with
          | map d0 =>
            rcases hsf : strip_flags fuel (.map d0) with _ | e2
            · rw [hsf] at h; simp at h
            · rw [hsf] at h
              simp only [Option.bind] at h
              exact hrec _ h (hset e2)
          | seq items =>
            have h2 : (do
                let items2 ← strip_list_items fuel items
                strip_dict_loop fuel (pre ++ rest) (dset st key_ (Node.seq items2))) =
                some st' := h
            rcases hsf : strip_list_items fuel items with _ | items2
            · rw [hsf] at h2; exact Option.noConfusion h2
            · rw [hsf] at h2
              exact hrec _ h2 (hset (.seq items2))
          | null => exact hrec _ h (hset .null)
          | bool b => exact hrec _ h (hset (.bool b))
          | num i => exact hrec _ h (hset (.num i))
          | str s0 => exact hrec _ h (hset (.str s0))
        · rw [hfl] at h
          simp only [if_true] at h
          have hkne : pyDrop key_ 1 ≠ k := fun hk => hnr ⟨hfl, hk⟩
          have hst1 : ∀ (x : Node),
              dget (ddel (dset st (pyDrop key_ 1) x) key_) k = dget st k := by
            intro x
            rw [dget_ddel_ne _ key_ k (Ne.symm hne)]
            exact dget_dset_ne st k _ x hkne
          have hset2 : ∀ (x y : Node),
              dget (dset (ddel (dset st (pyDrop key_ 1) x) key_) (pyDrop key_ 1) y) k =
                dget st k := by
            intro x y
            rw [dget_dset_ne _ k _ y hkne]
            exact hst1 x
          cases entry with
          | map d0 =>
            rcases hsf : strip_flags fuel (.map d0) with _ | e2
            · rw [hsf] at h; simp at h
            · rw [hsf] at h
              simp only [Option.bind] at h
              exact hrec _ h (hset2 _ e2)
          | seq items =>
            have h2 : (do
                let items2 ← strip_list_items fuel items
                strip_dict_loop fuel (pre ++ rest)
                  (dset (ddel (dset st (pyDrop key_ 1) (Node.seq items)) key_)
                    (pyDrop key_ 1) (Node.seq items2))) = some st' := h
            rcases hsf : strip_list_items fuel items with _ | items2
            · rw [hsf] at h2; exact Option.noConfusion h2
            · rw [hsf] at h2
              exact hrec _ h2 (hset2 _ (.seq items2))
          | null => exact hrec _ h (hset2 _ .null)
          | bool b => exact hrec _ h (hset2 _ (.bool b))
          | num i => exact hrec _ h (hset2 _ (.num i))
          | str s0 => exact hrec _ h (hset2 _ (.str s0))

/-- Processing the (unflagged) key `k` itself: its Sequence entry has its
    items stripped and is written back at `k`; later keys that cannot touch
    `k` leave it in place. -/
theorem strip_dict_loop_process_k
    (fuel : Nat) (post : List String) (st st' : Dict) (k : String) (xs : List Node)
    (h : strip_dict_loop (fuel + 1) (k :: post) st = some st')
    (hget : dget st k = some (.seq xs))
    (hk1 : pyStartsWith k "+" = false) (hk2 : pyStartsWith k "!" = false)
    (hpost : ∀ k2 ∈ post, k2 ≠ k ∧
      ¬((pyStartsWith k2 "+" || pyStartsWith k2 "!") = true ∧ pyDrop k2 1 = k)) :
    ∃ f out, strip_list_items f xs = some out ∧ dget st' k = some (.seq out) := by
  have hmem : dmem st k = true := dget_some_dmem hget
  simp only [strip_dict_loop, hmem, if_true, hget, hk1, hk2, Bool.or_false,
    Bool.false_eq_true, if_false] at h
  have h2 : (do
      let items2 ← strip_list_items fuel xs
      strip_dict_loop fuel post (dset st k (Node.seq items2))) = some st' := h
  rcases hsf : strip_list_items fuel xs with _ | out
  · rw [hsf] at h2; exact Option.noConfusion h2
  · rw [hsf] at h2
    have h3 : strip_dict_loop fuel (post ++ []) (dset st k (Node.seq out)) = some st' := by
      simpa using h2
    obtain ⟨f2, stmid, hmid, hdm⟩ :=
      strip_dict_loop_split_prefix fuel post [] _ st' k h3 hpost
    cases f2 with
    | zero => exact absurd hmid (by simp [strip_dict_loop])
    | succ f3 =>
      simp only [strip_dict_loop, Option.some.injEq] at hmid
      refine ⟨fuel, out, hsf, ?_⟩
      rw [← hmid, hdm]
      exact dget_dset_self st k (.seq out)

/-- Stripping a list of scalar items returns them unchanged. -/
theorem strip_list_items_scalars :
    ∀ (fuel : Nat) (items out : List Node),
      strip_list_items fuel items = some out →
      (∀ i ∈ items, isScalarNode i = true) → out = items
  | 0, items, out => by
    intro h _
    simp [strip_list_items] at h
  | fuel + 1, [], out => by
    intro h _
    simp only [strip_list_items, Option.some.injEq] at h
    exact h.symm
  | fuel + 1, item :: rest, out => by
    intro h hs
    have hitem := hs item (List.mem_cons_self _ _)
    have hrest : ∀ i ∈ rest, isScalarNode i = true :=
      fun i hi => hs i (List.mem_cons_of_mem _ hi)
    have hstep : ∀ (x : Node), (do
          let rest2 ← strip_list_items fuel rest
          some (x :: rest2)) = some out → out = x :: rest := by
      intro x hx
      rcases hr : strip_list_items fuel rest with _ | rest2
      · rw [hr] at hx; exact Option.noConfusion hx
      · rw [hr] at hx
        have hx2 : some (x :: rest2) = some out := hx
        have hre : rest2 = rest := strip_list_items_scalars fuel rest rest2 hr hrest
        simp only [Option.some.injEq] at hx2
        rw [← hx2, hre]
    cases item with
    | null => exact hstep _ h
    | bool b => exact hstep _ h
    | num i => exact hstep _ h
    | str s0 => exact hstep _ h
    | seq l => simp [isScalarNode] at hitem
    | map d0 => simp [isScalarNode] at hitem

/-- The accumulator form of the items appended by the sequence augment. -/
def new_local_aux (ts acc : List Node) : List Node → List Node
  | [] => acc
  | item :: rest =>
    if (ts ++ acc).any (fun x => nodeEq x item) then new_local_aux ts acc rest
    else new_local_aux ts (acc ++ [item]) rest

/-- The local items the sequence augment appends: those not already
    contained (by Python value equality) in the template sequence or among
    the items already appended, in local order. -/
def new_local_items (ts ls : List Node) : List Node :=
  new_local_aux ts [] ls

theorem augment_list_aux_eq (ts : List Node) :
    ∀ (ls acc : List Node),
      ls.foldl
        (fun acc item => if acc.any (fun x => nodeEq x item) then acc else acc ++ [item])
        (ts ++ acc) = ts ++ new_local_aux ts acc ls
  | [], acc => by simp [new_local_aux]
  | item :: rest, acc => by
    simp only [List.foldl_cons, new_local_aux]
    cases hc : (ts ++ acc).any (fun x => nodeEq x item)
    · simp only [Bool.false_eq_true, if_false]
      rw [List.append_assoc]
      exact augment_list_aux_eq ts rest (acc ++ [item])
    · simp only [if_true]
      exact augment_list_aux_eq ts rest acc

/-- The sequence augment is the template sequence followed by the new local
    items, in order. -/
theorem augment_list_eq_append (ts ls : List Node) :
    augment_list ts ls = ts ++ new_local_items ts ls := by
  have h := augment_list_aux_eq ts ls []
  simpa [augment_list, new_local_items] using h

theorem str_empty_append (k : String) : "" ++ k = k := rfl

theorem str_append_left_cancel (c a b : String) (h : c ++ a = c ++ b) : a = b := by
  have h2 := congrArg String.data h
  simp only [String.data_append] at h2
  exact String.ext (List.append_cancel_left h2)

theorem unflagged_ne_plus (k s : String) (h : pyStartsWith k "+" = false) :
    k ≠ "+" ++ s := by
  intro he
  rw [he, pyStartsWith_plus_append] at h
  exact Bool.noConfusion h

theorem unflagged_ne_bang (k s : String) (h : pyStartsWith k "!" = false) :
    k ≠ "!" ++ s := by
  intro he
  rw [he, pyStartsWith_bang_append] at h
  exact Bool.noConfusion h

/-- The flag returned by `is_key_in` is one of the three probed spellings. -/
theorem is_key_in_flag (t : Dict) (key : String) :
    (is_key_in t key).2 = "+" ∨ (is_key_in t key).2 = "!" ∨
      (is_key_in t key).2 = "" := by
  unfold is_key_in
  cases dmem t ("+" ++ key)
  · cases dmem t ("!" ++ key)
    · cases dmem t key
      · simp
      · simp
    · simp
  · simp

/-- A dict lookup splits the dict at the first occurrence of the key. -/
theorem dget_split : ∀ (d : Dict) (k : String) (v : Node), dget d k = some v →
    ∃ l1 l2, d = l1 ++ (k, v) :: l2 ∧ ∀ p ∈ l1, p.1 ≠ k
  | [], k, v => by
    intro h
    simp [dget] at h
  | p :: rest, k, v => by
    intro h
    simp only [dget] at h
    cases hp : p.1 == k
    · rw [hp] at h
      simp only [Bool.false_eq_true, if_false] at h
      obtain ⟨l1, l2, he, hc⟩ := dget_split rest k v h
      refine ⟨p :: l1, l2, by rw [List.cons_append, ← he], ?_⟩
      intro q hq
      rcases List.mem_cons.mp hq with rfl | hq2
      · simpa using hp
      · exact hc q hq2
    · rw [hp] at h
      simp only [if_true, Option.some.injEq] at h
      have hp1 : p.1 = k := by simpa using hp
      obtain ⟨a, b⟩ := p
      simp only at hp1 h
      subst hp1
      subst h
      exact ⟨[], rest, rfl, by simp⟩

/-- Every merge-loop step updates the evolving dict only through `dset` and
    `ddel`, so distinctness of its keys is preserved. -/
theorem merge_loop_keys_nodup :
    ∀ (fuel : Nat) (t merged : Dict) (rest : List (String × Node)) (m : Dict),
      merge_loop fuel t merged rest = .ok m →
      (merged.map Prod.fst).Nodup → (m.map Prod.fst).Nodup
  | 0, t, merged, rest, m => by
    intro h _
    exact Except.noConfusion h
  | fuel + 1, t, merged, [], m => by
    intro h hnd
    have h2 : Except.ok (ε := MErr) merged = Except.ok m := h
    simp only [Except.ok.injEq] at h2
    exact h2 ▸ hnd
  | fuel + 1, t, merged, (key_, entry_l) :: rest, m => by
    intro h hnd
    have hplain : ∀ (kk : String) (v : Node),
        merge_loop fuel t (dset merged kk v) rest = .ok m →
        (m.map Prod.fst).Nodup :=
      fun kk v hlp =>
        merge_loop_keys_nodup fuel t _ rest m hlp (keys_dset_nodup merged kk v hnd)
    have hafter : ∀ (kk fl : String) (v : Node),
        merge_loop fuel t
          (if (fl != "" && dmem (dset merged kk v) (fl ++ kk)) = true
           then ddel (dset merged kk v) (fl ++ kk) else dset merged kk v) rest = .ok m →
        (m.map Prod.fst).Nodup := by
      intro kk fl v hlp
      cases hc : (fl != "" && dmem (dset merged kk v) (fl ++ kk)) <;> rw [hc] at hlp
      · simp only [Bool.false_eq_true, if_false] at hlp
        exact hplain kk v hlp
      · simp only [if_true] at hlp
        exact merge_loop_keys_nodup fuel t _ rest m hlp
          (keys_ddel_nodup _ _ (keys_dset_nodup merged kk v hnd))
    simp only [merge_loop] at h
    cases hst : pyStartsWith key_ "!" <;> rw [hst] at h
    · simp only [Bool.false_eq_true, if_false] at h
      rcases hks : is_key_in t key_ with ⟨b, flag⟩
      have hks1 : (is_key_in t key_).1 = b := by rw [hks]
      have hks2 : (is_key_in t key_).2 = flag := by rw [hks]
      rw [hks1, hks2] at h
      cases b
      · simp only [Bool.false_eq_true, if_false] at h
        exact hplain key_ entry_l h
      · simp only [eq_self_iff_true, if_true] at h
        rcases hgt : dget t (flag ++ key_) with _ | entry_t
        · rw [hgt] at h
          exact Except.noConfusion h
        · rw [hgt] at h
          cases entry_t <;> cases entry_l <;>
            try exact hafter key_ flag _ h
          · next ts2 ls2 =>
              cases hfe : flag == "+" <;> rw [hfe] at h <;>
                exact hafter key_ flag _ h
          · next t2 l2 =>
              have h2 : (do
                  let m2 ← merge_settings fuel t2 l2
                  let y ← pure (dset merged key_ (Node.map m2))
                  merge_loop fuel t
                    (if (flag != "" && dmem y (flag ++ key_)) = true
                     then ddel y (flag ++ key_) else y) rest) = Except.ok m := h
              rcases hm2 : merge_settings fuel t2 l2 with e | m2
              · rw [hm2] at h2
                exact Except.noConfusion h2
              · rw [hm2] at h2
                exact hafter key_ flag (.map m2) h2
    · simp only [eq_self_iff_true, if_true] at h
      rcases hks : is_key_in t (pyDrop key_ 1) with ⟨b, flag⟩
      have hks1 : (is_key_in t (pyDrop key_ 1)).1 = b := by rw [hks]
      have hks2 : (is_key_in t (pyDrop key_ 1)).2 = flag := by rw [hks]
      rw [hks1, hks2] at h
      cases b
      · simp only [Bool.false_eq_true, if_false] at h
        exact hplain (pyDrop key_ 1) entry_l h
      · simp only [eq_self_iff_true, if_true] at h
        exact hafter (pyDrop key_ 1) flag entry_l h

/-- Merge-loop steps whose keys can neither write the canonical key `k` or
    a flagged spelling of it, nor stomp onto one of those spellings, preserve
    the entry at `k` and the presence of `+k` and `!k`; the loop resumes past
    them from some intermediate state. -/
theorem merge_loop_frame :
    ∀ (fuel : Nat) (t merged : Dict) (pre rest2 : List (String × Node)) (m : Dict)
      (k : String),
      pyStartsWith k "+" = false → pyStartsWith k "!" = false →
      (∀ p ∈ pre, p.1 ≠ k ∧ p.1 ≠ "+" ++ k ∧ p.1 ≠ "!" ++ k ∧
        p.1 ≠ "!" ++ ("+" ++ k) ∧ p.1 ≠ "!" ++ ("!" ++ k)) →
      merge_loop fuel t merged (pre ++ rest2) = .ok m →
      ∃ f2 merged2, merge_loop f2 t merged2 rest2 = .ok m ∧
        dget merged2 k = dget merged k ∧
        dmem merged2 ("+" ++ k) = dmem merged ("+" ++ k) ∧
        dmem merged2 ("!" ++ k) = dmem merged ("!" ++ k)
  | fuel, t, merged, [], rest2, m, k => by
    intro _ _ _ h
    exact ⟨fuel, merged, h, rfl, rfl, rfl⟩
  | 0, t, merged, (key_, entry_l) :: pre, rest2, m, k => by
    intro _ _ _ h
    exact Except.noConfusion h
  | fuel + 1, t, merged, (key_, entry_l) :: pre, rest2, m, k => by
    intro hk1 hk2 hexc h
    obtain ⟨he1, he2, he3, he4, he5⟩ := hexc (key_, entry_l) (List.mem_cons_self _ _)
    have hexc2 : ∀ p ∈ pre, p.1 ≠ k ∧ p.1 ≠ "+" ++ k ∧ p.1 ≠ "!" ++ k ∧
        p.1 ≠ "!" ++ ("+" ++ k) ∧ p.1 ≠ "!" ++ ("!" ++ k) :=
      fun p hp => hexc p (List.mem_cons_of_mem _ hp)
    have hrec : ∀ (st2 : Dict), merge_loop fuel t st2 (pre ++ rest2) = .ok m →
        dget st2 k = dget merged k →
        dmem st2 ("+" ++ k) = dmem merged ("+" ++ k) →
        dmem st2 ("!" ++ k) = dmem merged ("!" ++ k) →
        ∃ f2 merged2, merge_loop f2 t merged2 rest2 = .ok m ∧
          dget merged2 k = dget merged k ∧
          dmem merged2 ("+" ++ k) = dmem merged ("+" ++ k) ∧
          dmem merged2 ("!" ++ k) = dmem merged ("!" ++ k) := by
      intro st2 h2 d1 d2 d3
      obtain ⟨f2, m2, hl, o1, o2, o3⟩ :=
        merge_loop_frame fuel t st2 pre rest2 m k hk1 hk2 hexc2 h2
      exact ⟨f2, m2, hl, o1.trans d1, o2.trans d2, o3.trans d3⟩
    have hflagne : ∀ (fl kk : String), fl = "+" ∨ fl = "!" ∨ fl = "" →
        kk ≠ k → kk ≠ "+" ++ k → kk ≠ "!" ++ k →
        fl ++ kk ≠ k ∧ fl ++ kk ≠ "+" ++ k ∧ fl ++ kk ≠ "!" ++ k := by
      rintro fl kk (rfl | rfl | rfl) n1 n2 n3
      · refine ⟨?_, ?_, plus_bang_append_ne kk k⟩
        · intro he
          exact unflagged_ne_plus k kk hk1 he.symm
        · intro he
          exact n1 (str_append_left_cancel "+" kk k he)
      · refine ⟨?_, ?_, ?_⟩
        · intro he
          exact unflagged_ne_bang k kk hk2 he.symm
        · intro he
          exact plus_bang_append_ne k kk he.symm
        · intro he
          exact n1 (str_append_left_cancel "!" kk k he)
      · rw [str_empty_append]
        exact ⟨n1, n2, n3⟩
    have hplain : ∀ (kk : String) (v : Node), kk ≠ k → kk ≠ "+" ++ k → kk ≠ "!" ++ k →
        merge_loop fuel t (dset merged kk v) (pre ++ rest2) = .ok m →
        ∃ f2 merged2, merge_loop f2 t merged2 rest2 = .ok m ∧
          dget merged2 k = dget merged k ∧
          dmem merged2 ("+" ++ k) = dmem merged ("+" ++ k) ∧
          dmem merged2 ("!" ++ k) = dmem merged ("!" ++ k) := by
      intro kk v n1 n2 n3 hlp
      exact hrec _ hlp (dget_dset_ne merged k kk v n1)
        (dmem_dset_ne merged ("+" ++ k) kk v n2)
        (dmem_dset_ne merged ("!" ++ k) kk v n3)
    have hafter : ∀ (kk fl : String) (v : Node),
        kk ≠ k → kk ≠ "+" ++ k → kk ≠ "!" ++ k →
        fl ++ kk ≠ k → fl ++ kk ≠ "+" ++ k → fl ++ kk ≠ "!" ++ k →
        merge_loop fuel t
          (if (fl != "" && dmem (dset merged kk v) (fl ++ kk)) = true
           then ddel (dset merged kk v) (fl ++ kk) else dset merged kk v)
          (pre ++ rest2) = .ok m →
        ∃ f2 merged2, merge_loop f2 t merged2 rest2 = .ok m ∧
          dget merged2 k = dget merged k ∧
          dmem merged2 ("+" ++ k) = dmem merged ("+" ++ k) ∧
          dmem merged2 ("!" ++ k) = dmem merged ("!" ++ k) := by
      intro kk fl v n1 n2 n3 q1 q2 q3 hlp
      cases hc : (fl != "" && dmem (dset merged kk v) (fl ++ kk)) <;> rw [hc] at hlp
      · simp only [Bool.false_eq_true, if_false] at hlp
        exact hplain kk v n1 n2 n3 hlp
      · simp only [if_true] at hlp
        refine hrec _ hlp ?_ ?_ ?_
        · rw [dget_ddel_ne _ (fl ++ kk) k (Ne.symm q1)]
          exact dget_dset_ne merged k kk v n1
        · rw [dmem_ddel_ne _ (fl ++ kk) ("+" ++ k) (Ne.symm q2)]
          exact dmem_dset_ne merged ("+" ++ k) kk v n2
        · rw [dmem_ddel_ne _ (fl ++ kk) ("!" ++ k) (Ne.symm q3)]
          exact dmem_dset_ne merged ("!" ++ k) kk v n3
    simp only [List.cons_append, merge_loop] at h
    cases hst : pyStartsWith key_ "!" <;> rw [hst] at h
    · simp only [Bool.false_eq_true, if_false] at h
      rcases hks : is_key_in t key_ with ⟨b, flag⟩
      have hks1 : (is_key_in t key_).1 = b := by rw [hks]
      have hks2 : (is_key_in t key_).2 = flag := by rw [hks]
      have hfl3 : flag = "+" ∨ flag = "!" ∨ flag = "" := by
        rw [← hks2]
        exact is_key_in_flag t key_
      obtain ⟨q1, q2, q3⟩ := hflagne flag key_ hfl3 he1 he2 he3
      rw [hks1, hks2] at h
      cases b
      · simp only [Bool.false_eq_true, if_false] at h
        exact hplain key_ entry_l he1 he2 he3 h
      · simp only [eq_self_iff_true, if_true] at h
        rcases hgt : dget t (flag ++ key_) with _ | entry_t
        · rw [hgt] at h
          exact Except.noConfusion h
        · rw [hgt] at h
          cases entry_t <;> cases entry_l <;>
            try exact hafter key_ flag _ he1 he2 he3 q1 q2 q3 h
          · next ts2 ls2 =>
              cases hfe : flag == "+" <;> rw [hfe] at h <;>
                exact hafter key_ flag _ he1 he2 he3 q1 q2 q3 h
          · next t2 l2 =>
              have h2 : (do
                  let m2 ← merge_settings fuel t2 l2
                  let y ← pure (dset merged key_ (Node.map m2))
                  merge_loop fuel t
                    (if (flag != "" && dmem y (flag ++ key_)) = true
                     then ddel y (flag ++ key_) else y) (pre ++ rest2)) = Except.ok m := h
              rcases hm2 : merge_settings fuel t2 l2 with e | m2
              · rw [hm2] at h2
                exact Except.noConfusion h2
              · rw [hm2] at h2
                exact hafter key_ flag (.map m2) he1 he2 he3 q1 q2 q3 h2
    · simp only [eq_self_iff_true, if_true] at h
      have hshape : key_ = "!" ++ pyDrop key_ 1 := by
        rcases flagged_rename_eq key_ (pyDrop key_ 1) (by rw [hst]; simp) rfl with he | he
        · rw [he, pyStartsWith_plus_append_bang] at hst
          exact Bool.noConfusion hst
        · exact he
      have hK1 : pyDrop key_ 1 ≠ k := by
        intro he
        rw [he] at hshape
        exact he3 hshape
      have hK2 : pyDrop key_ 1 ≠ "+" ++ k := by
        intro he
        rw [he] at hshape
        exact he4 hshape
      have hK3 : pyDrop key_ 1 ≠ "!" ++ k := by
        intro he
        rw [he] at hshape
        exact he5 hshape
      rcases hks : is_key_in t (pyDrop key_ 1) with ⟨b, flag⟩
      have hks1 : (is_key_in t (pyDrop key_ 1)).1 = b := by rw [hks]
      have hks2 : (is_key_in t (pyDrop key_ 1)).2 = flag := by rw [hks]
      have hfl3 : flag = "+" ∨ flag = "!" ∨ flag = "" := by
        rw [← hks2]
        exact is_key_in_flag t (pyDrop key_ 1)
      obtain ⟨q1, q2, q3⟩ := hflagne flag (pyDrop key_ 1) hfl3 hK1 hK2 hK3
      rw [hks1, hks2] at h
      cases b
      · simp only [Bool.false_eq_true, if_false] at h
        exact hplain (pyDrop key_ 1) entry_l hK1 hK2 hK3 h
      · simp only [eq_self_iff_true, if_true] at h
        exact hafter (pyDrop key_ 1) flag entry_l hK1 hK2 hK3 q1 q2 q3 h

/-- One `_merge_settings` loop step in the augment configuration: local key
    `k` (no stomp), template entry found under `+k`, both Sequences. -/
theorem merge_loop_step_augment (G : Nat) (t merged : Dict) (k : String) (ts ls : List Node)
    (rest : List (String × Node))
    (hk2 : pyStartsWith k "!" = false)
    (hkin : is_key_in t k = (true, "+"))
    (hplus : dget t ("+" ++ k) = some (.seq ts))
    (hdm : dmem (dset merged k (.seq (augment_list ts ls))) ("+" ++ k) = true) :
    merge_loop (G + 1) t merged ((k, .seq ls) :: rest) =
      merge_loop G t (ddel (dset merged k (.seq (augment_list ts ls))) ("+" ++ k)) rest := by
  simp [merge_loop, hk2, hkin, hplus, hdm, bind, Except.bind, pure, Except.pure]

/-- C1 (amended): when the template stores a Sequence under the
    `+`-flagged spelling of the canonical key `k` (no `!`-spelling present,
    template keys distinct) and the local mapping — its keys distinct —
    holds a Sequence at the plain key `k` and no other spelling that can
    write `k` or a flagged spelling of it (no `+k` or `!k` key, and no
    `!+k` or `!!k` stomp key), the merge produces at `k` the template
    sequence followed by exactly those local items not already contained (by
    Python value equality, progressively), template order first and new
    local items in local order — with the terminal flag-strip pass applied
    to the items, which rewrites flagged keys inside Mapping items; when the
    items are scalars the value at `k` is exactly the augmented sequence. -/
theorem claim_C1 :
    ∀ (fuel : Nat) (t l : Dict) (k : String) (ts ls : List Node) (m : Dict),
      pyStartsWith k "+" = false → pyStartsWith k "!" = false →
      dget t ("+" ++ k) = some (.seq ts) →
      dmem t ("!" ++ k) = false →
      (t.map Prod.fst).Nodup →
      dget l k = some (.seq ls) →
      (l.map Prod.fst).Nodup →
      dmem l ("+" ++ k) = false →
      dmem l ("!" ++ k) = false →
      dmem l ("!" ++ ("+" ++ k)) = false →
      dmem l ("!" ++ ("!" ++ k)) = false →
      merge_settings fuel t l = .ok m →
      augment_list ts ls = ts ++ new_local_items ts ls ∧
      (∃ f out, strip_list_items f (augment_list ts ls) = some out ∧
        dget m k = some (.seq out)) ∧
      ((∀ i ∈ augment_list ts ls, isScalarNode i = true) →
        dget m k = some (.seq (augment_list ts ls))) := by
  intro fuel t l k ts ls m hk1 hk2 hplus hbang hndt hlk hndl hlp hlb hlsp hlsb hm
  have hpm : dmem t ("+" ++ k) = true := dget_some_dmem hplus
  have hkin : is_key_in t k = (true, "+") := by simp [is_key_in, hpm]
  have hne_pk : k ≠ "+" ++ k := Ne.symm (plus_append_ne k)
  refine ⟨augment_list_eq_append ts ls, ?_⟩
  cases fuel with
  | zero => exact absurd hm (by simp [merge_settings])
  | succ F =>
  rcases hml : merge_loop F t t l with e | W
  · rw [show merge_settings (F + 1) t l = (do
        let merged ← merge_loop F t t l
        match strip_flags_dict (F + 1) merged with
        | some m2 => Except.ok m2
        | none => Except.error MErr.outOfFuel) from rfl, hml] at hm
    exact Except.noConfusion hm
  · rw [show merge_settings (F + 1) t l = (do
        let merged ← merge_loop F t t l
        match strip_flags_dict (F + 1) merged with
        | some m2 => Except.ok m2
        | none => Except.error MErr.outOfFuel) from rfl, hml] at hm
    have hm2 : (match strip_flags_dict (F + 1) W with
        | some m2 => Except.ok m2
        | none => Except.error MErr.outOfFuel) = Except.ok m := hm
    rcases hstrip : strip_flags_dict (F + 1) W with _ | m2
    · rw [hstrip] at hm2
      exact Except.noConfusion hm2
    rw [hstrip] at hm2
    simp only [Except.ok.injEq] at hm2
    subst hm2
    -- key distinctness facts for the parts of the local list around k
    have hndW : (W.map Prod.fst).Nodup := merge_loop_keys_nodup F t t l W hml hndt
    obtain ⟨l1, l2, hsplitl, hl1k⟩ := dget_split l k (.seq ls) hlk
    have hkeyne : ∀ (s : String), dmem l s = false → ∀ p ∈ l, p.1 ≠ s := by
      intro s hs p hp he
      have hmem : dmem l s = true := by
        rw [dmem_iff_mem_keys]
        exact he ▸ List.mem_map_of_mem Prod.fst hp
      rw [hmem] at hs
      exact Bool.noConfusion hs
    have hl2k : ∀ p ∈ l2, p.1 ≠ k := by
      have hnd2 : ((l1 ++ (k, Node.seq ls) :: l2).map Prod.fst).Nodup := by
        rw [← hsplitl]
        exact hndl
      rw [List.map_append, List.map_cons] at hnd2
      obtain ⟨hpreN, hconsN, hdisj⟩ := List.nodup_append.mp hnd2
      have hkn : k ∉ l2.map Prod.fst := (List.nodup_cons.mp hconsN).1
      intro p hp he
      exact hkn (he ▸ List.mem_map_of_mem Prod.fst hp)
    have hexcl : ∀ (part : List (String × Node)), (∀ p ∈ part, p ∈ l) →
        (∀ p ∈ part, p.1 ≠ k) →
        ∀ p ∈ part, p.1 ≠ k ∧ p.1 ≠ "+" ++ k ∧ p.1 ≠ "!" ++ k ∧
          p.1 ≠ "!" ++ ("+" ++ k) ∧ p.1 ≠ "!" ++ ("!" ++ k) := by
      intro part hsub hnk p hp
      exact ⟨hnk p hp, hkeyne _ hlp p (hsub p hp), hkeyne _ hlb p (hsub p hp),
        hkeyne _ hlsp p (hsub p hp), hkeyne _ hlsb p (hsub p hp)⟩
    have hl1sub : ∀ p ∈ l1, p ∈ l := by
      intro p hp
      rw [hsplitl]
      exact List.mem_append_left _ hp
    have hl2sub : ∀ p ∈ l2, p ∈ l := by
      intro p hp
      rw [hsplitl]
      exact List.mem_append_right _ (List.mem_cons_of_mem _ hp)
    -- walk the loop: the prefix before k, the k step, the suffix after k
    rw [hsplitl] at hml
    obtain ⟨f2, merged2, hloop2, hgd2, hdp2, hdb2⟩ :=
      merge_loop_frame F t t l1 ((k, Node.seq ls) :: l2) W k hk1 hk2
        (hexcl l1 hl1sub hl1k) hml
    cases f2 with
    | zero => exact absurd hloop2 (by simp [merge_loop])
    | succ G =>
    have hdm1 : dmem (dset merged2 k (.seq (augment_list ts ls))) ("+" ++ k) = true := by
      rw [dmem_dset_ne merged2 ("+" ++ k) k _ hne_pk, hdp2]
      exact hpm
    have hstep := merge_loop_step_augment G t merged2 k ts ls l2 hk2 hkin hplus hdm1
    rw [hstep] at hloop2
    have hloop2b : merge_loop G t
        (ddel (dset merged2 k (.seq (augment_list ts ls))) ("+" ++ k)) (l2 ++ []) =
        .ok W := by
      simpa using hloop2
    obtain ⟨f3, merged3, hloop3, hgd3, hdp3, hdb3⟩ :=
      merge_loop_frame G t _ l2 [] W k hk1 hk2 (hexcl l2 hl2sub hl2k) hloop2b
    cases f3 with
    | zero => exact absurd hloop3 (by simp [merge_loop])
    | succ H =>
    have hWm : W = merged3 := by
      have h3 : Except.ok (ε := MErr) merged3 = Except.ok W := hloop3
      simp only [Except.ok.injEq] at h3
      exact h3.symm
    -- the loop output holds the augmented sequence at k, no flagged spelling
    have hgm : dget W k = some (.seq (augment_list ts ls)) := by
      rw [hWm, hgd3, dget_ddel_ne _ ("+" ++ k) k hne_pk]
      exact dget_dset_self merged2 k _
    have hnp : dmem W ("+" ++ k) = false := by
      rw [hWm, hdp3]
      exact dmem_ddel_self _ _
    have hnb : dmem W ("!" ++ k) = false := by
      rw [hWm, hdb3,
        dmem_ddel_ne _ ("+" ++ k) ("!" ++ k) (Ne.symm (plus_bang_append_ne k k)),
        dmem_dset_ne _ ("!" ++ k) k _ (Ne.symm (bang_append_ne k)), hdb2]
      exact hbang
    -- the terminal strip pass
    have hstriploop : strip_dict_loop F (W.map Prod.fst) W = some m2 := hstrip
    have hcon : ∀ k2, k2 ∈ W.map Prod.fst →
        ¬((pyStartsWith k2 "+" || pyStartsWith k2 "!") = true ∧ pyDrop k2 1 = k) := by
      rintro k2 hk2mem ⟨hf, hd⟩
      rcases flagged_rename_eq k2 k hf hd with rfl | rfl
      · exact absurd ((dmem_iff_mem_keys _ _).mpr hk2mem) (by simp [hnp])
      · exact absurd ((dmem_iff_mem_keys _ _).mpr hk2mem) (by simp [hnb])
    have hmemk : k ∈ W.map Prod.fst :=
      (dmem_iff_mem_keys _ _).mp (dget_some_dmem hgm)
    obtain ⟨pre, post, hsplit⟩ := List.append_of_mem hmemk
    have hnd2 : (pre ++ k :: post).Nodup := hsplit ▸ hndW
    obtain ⟨hpreN, hconsN, hdisj⟩ := List.nodup_append.mp hnd2
    have hkpre : k ∉ pre := fun hk => hdisj hk (List.mem_cons_self _ _)
    have hkpost : k ∉ post := (List.nodup_cons.mp hconsN).1
    have hprecon : ∀ k2 ∈ pre, k2 ≠ k ∧
        ¬((pyStartsWith k2 "+" || pyStartsWith k2 "!") = true ∧ pyDrop k2 1 = k) := by
      intro k2 hk2m
      refine ⟨fun he => hkpre (he ▸ hk2m), hcon k2 ?_⟩
      rw [hsplit]
      exact List.mem_append_left _ hk2m
    have hpostcon : ∀ k2 ∈ post, k2 ≠ k ∧
        ¬((pyStartsWith k2 "+" || pyStartsWith k2 "!") = true ∧ pyDrop k2 1 = k) := by
      intro k2 hk2m
      refine ⟨fun he => hkpost (he ▸ hk2m), hcon k2 ?_⟩
      rw [hsplit]
      exact List.mem_append_right _ (List.mem_cons_of_mem _ hk2m)
    rw [hsplit] at hstriploop
    obtain ⟨f, stmid, hmid, hdmid⟩ :=
      strip_dict_loop_split_prefix F pre (k :: post) W m2 k hstriploop hprecon
    cases f with
    | zero => exact absurd hmid (by simp [strip_dict_loop])
    | succ f2 =>
      obtain ⟨f3, out, hout, hatk⟩ :=
        strip_dict_loop_process_k f2 post stmid m2 k (augment_list ts ls) hmid
          (hdmid.trans hgm) hk1 hk2 hpostcon
      refine ⟨⟨f3, out, hout, hatk⟩, ?_⟩
      intro hscl
      rw [strip_list_items_scalars f3 _ out hout hscl] at hatk
      exact hatk

/-! ### Flag predicates for the merge output invariant -/

/-- A key is flag-prefixed. -/
def keyFlagged (k : String) : Bool :=
  pyStartsWith k "+" || pyStartsWith k "!"

/-- A key carries at most one leading flag character: if flagged, its
    remainder after one character is not itself flag-prefixed. -/
def okKey (k : String) : Bool :=
  !(keyFlagged k && keyFlagged (pyDrop k 1))

mutual
/-- Every dict key at every depth (also inside sequences) carries at most
    one leading flag character. -/
def goodNode : Node → Bool
  | .map d => goodDict d
  | .seq items => goodList items
  | _ => true

def goodList : List Node → Bool
  | [] => true
  | x :: xs => goodNode x && goodList xs

def goodDict : Dict → Bool
  | [] => true
  | (k, v) :: rest => okKey k && goodNode v && goodDict rest
end

mutual
/-- No dict key at any depth (also inside sequences) is flag-prefixed. -/
def noFlagNode : Node → Bool
  | .map d => noFlagDict d
  | .seq items => noFlagList items
  | _ => true

def noFlagList : List Node → Bool
  | [] => true
  | x :: xs => noFlagNode x && noFlagList xs

def noFlagDict : Dict → Bool
  | [] => true
  | (k, v) :: rest => !keyFlagged k && noFlagNode v && noFlagDict rest
end

theorem okKey_of_unflagged {k : String} (h : keyFlagged k = false) : okKey k = true := by
  simp [okKey, h]

theorem okKey_flagged_drop {k : String} (h1 : okKey k = true) (h2 : keyFlagged k = true) :
    keyFlagged (pyDrop k 1) = false := by
  simp only [okKey, h2, Bool.true_and, Bool.not_eq_true'] at h1
  exact h1

mutual
theorem noFlag_good : ∀ (n : Node), noFlagNode n = true → goodNode n = true
  | .map d => fun h => noFlag_goodD d h
  | .seq items => fun h => noFlag_goodL items h
  | .null => fun _ => rfl
  | .bool _ => fun _ => rfl
  | .num _ => fun _ => rfl
  | .str _ => fun _ => rfl

theorem noFlag_goodL : ∀ (l : List Node), noFlagList l = true → goodList l = true
  | [] => fun _ => rfl
  | x :: xs => by
    intro h
    simp only [noFlagList, Bool.and_eq_true] at h
    simp only [goodList, Bool.and_eq_true]
    exact ⟨noFlag_good x h.1, noFlag_goodL xs h.2⟩

theorem noFlag_goodD : ∀ (d : Dict), noFlagDict d = true → goodDict d = true
  | [] => fun _ => rfl
  | (k, v) :: rest => by
    intro h
    simp only [noFlagDict, Bool.and_eq_true] at h
    simp only [goodDict, Bool.and_eq_true]
    exact ⟨⟨okKey_of_unflagged (by simpa using h.1.1), noFlag_good v h.1.2⟩,
      noFlag_goodD rest h.2⟩
end

theorem goodDict_mem : ∀ (d : Dict) (p : String × Node), goodDict d = true → p ∈ d →
    okKey p.1 = true ∧ goodNode p.2 = true
  | [], p => by intro _ hp; exact absurd hp (List.not_mem_nil p)
  | (k, v) :: rest, p => by
    intro h hp
    simp only [goodDict, Bool.and_eq_true] at h
    rcases List.mem_cons.mp hp with rfl | hp2
    · exact ⟨h.1.1, h.1.2⟩
    · exact goodDict_mem rest p h.2 hp2

theorem goodList_mem : ∀ (l : List Node) (x : Node), goodList l = true → x ∈ l →
    goodNode x = true
  | [], x => by intro _ hx; exact absurd hx (List.not_mem_nil x)
  | y :: ys, x => by
    intro h hx
    simp only [goodList, Bool.and_eq_true] at h
    rcases List.mem_cons.mp hx with rfl | hx2
    · exact h.1
    · exact goodList_mem ys x h.2 hx2

theorem noFlagDict_of_entries : ∀ (d : Dict),
    (∀ p ∈ d, keyFlagged p.1 = false ∧ noFlagNode p.2 = true) → noFlagDict d = true
  | [] => fun _ => rfl
  | (k, v) :: rest => by
    intro h
    obtain ⟨h1, h2⟩ := h (k, v) (List.mem_cons_self _ _)
    simp only [noFlagDict, Bool.and_eq_true]
    exact ⟨⟨by simp [h1], h2⟩, noFlagDict_of_entries rest
      (fun p hp => h p (List.mem_cons_of_mem _ hp))⟩

theorem goodList_append : ∀ (a b : List Node), goodList a = true → goodList b = true →
    goodList (a ++ b) = true
  | [], b => fun _ hb => hb
  | x :: xs, b => by
    intro ha hb
    simp only [goodList, Bool.and_eq_true] at ha
    simp only [List.cons_append, goodList, Bool.and_eq_true]
    exact ⟨ha.1, goodList_append xs b ha.2 hb⟩

theorem goodList_augment_aux : ∀ (ls ts : List Node),
    goodList ts = true → goodList ls = true →
    goodList (ls.foldl
      (fun acc item => if acc.any (fun x => nodeEq x item) then acc else acc ++ [item])
      ts) = true
  | [], ts => fun ht _ => ht
  | x :: xs, ts => by
    intro ht hl
    simp only [goodList, Bool.and_eq_true] at hl
    simp only [List.foldl_cons]
    cases hc : ts.any (fun y => nodeEq y x)
    · simp only [Bool.false_eq_true, if_false]
      exact goodList_augment_aux xs (ts ++ [x])
        (goodList_append ts [x] ht (by simp [goodList, hl.1])) hl.2
    · simp only [if_true]
      exact goodList_augment_aux xs ts ht hl.2

theorem goodList_augment (ts ls : List Node) (ht : goodList ts = true)
    (hl : goodList ls = true) : goodList (augment_list ts ls) = true :=
  goodList_augment_aux ls ts ht hl

/-! ### Membership through dict updates -/

theorem mem_dsetIn : ∀ (d : Dict) (k : String) (v : Node) (p : String × Node),
    p ∈ dsetIn d k v → p = (k, v) ∨ (p ∈ d ∧ p.1 ≠ k)
  | [], k, v, p => by intro hp; exact absurd hp (List.not_mem_nil p)
  | q :: rest, k, v, p => by
    intro hp
    simp only [dsetIn] at hp
    cases hq : q.1 == k
    · rw [hq] at hp
      simp only [Bool.false_eq_true, if_false] at hp
      rcases List.mem_cons.mp hp with rfl | hp2
      · exact Or.inr ⟨List.mem_cons_self _ _, by simpa using hq⟩
      · rcases mem_dsetIn rest k v p hp2 with h | ⟨h1, h2⟩
        · exact Or.inl h
        · exact Or.inr ⟨List.mem_cons_of_mem _ h1, h2⟩
    · rw [hq] at hp
      simp only [if_true] at hp
      rcases List.mem_cons.mp hp with rfl | hp2
      · exact Or.inl rfl
      · rcases mem_dsetIn rest k v p hp2 with h | ⟨h1, h2⟩
        · exact Or.inl h
        · exact Or.inr ⟨List.mem_cons_of_mem _ h1, h2⟩

theorem mem_dset (d : Dict) (k : String) (v : Node) (p : String × Node)
    (hp : p ∈ dset d k v) : p = (k, v) ∨ (p ∈ d ∧ p.1 ≠ k) := by
  cases hm : dmem d k
  · simp only [dset, hm, Bool.false_eq_true, if_false] at hp
    rcases List.mem_append.mp hp with h | h
    · by_cases he : p.1 = k
      · exfalso
        have : dmem d k = true := by
          rw [dmem_iff_mem_keys]
          exact he ▸ List.mem_map_of_mem Prod.fst h
        rw [this] at hm
        exact Bool.noConfusion hm
      · exact Or.inr ⟨h, he⟩
    · simp only [List.mem_singleton] at h
      exact Or.inl h
  · simp only [dset, hm, if_true] at hp
    exact mem_dsetIn d k v p hp

theorem mem_ddel : ∀ (d : Dict) (k : String) (p : String × Node),
    p ∈ ddel d k → p ∈ d ∧ p.1 ≠ k
  | [], k, p => by intro hp; exact absurd hp (List.not_mem_nil p)
  | q :: rest, k, p => by
    intro hp
    simp only [ddel] at hp
    cases hq : q.1 == k
    · rw [hq] at hp
      simp only [Bool.false_eq_true, if_false] at hp
      rcases List.mem_cons.mp hp with rfl | hp2
      · exact ⟨List.mem_cons_self _ _, by simpa using hq⟩
      · obtain ⟨h1, h2⟩ := mem_ddel rest k p hp2
        exact ⟨List.mem_cons_of_mem _ h1, h2⟩
    · rw [hq] at hp
      simp only [if_true] at hp
      obtain ⟨h1, h2⟩ := mem_ddel rest k p hp
      exact ⟨List.mem_cons_of_mem _ h1, h2⟩

theorem dget_some_mem : ∀ (d : Dict) (k : String) (v : Node),
    dget d k = some v → (k, v) ∈ d
  | [], k, v => by intro h; simp [dget] at h
  | p :: rest, k, v => by
    intro h
    simp only [dget] at h
    cases hp : p.1 == k
    · rw [hp] at h
      simp only [Bool.false_eq_true, if_false] at h
      exact List.mem_cons_of_mem _ (dget_some_mem rest k v h)
    · rw [hp] at h
      simp only [if_true, Option.some.injEq] at h
      have hp1 : p.1 = k := by simpa using hp
      have : p = (k, v) := by
        obtain ⟨a, b⟩ := p
        simp only at hp1 h
        rw [hp1, h]
      exact this ▸ List.mem_cons_self _ _

theorem mem_keys_of_mem {d : Dict} {p : String × Node} (hp : p ∈ d) :
    p.1 ∈ d.map Prod.fst :=
  List.mem_map_of_mem Prod.fst hp

/-! ### Strip produces flag-free output on singly-flagged input -/

mutual
theorem strip_flags_noFlag : ∀ (fuel : Nat) (n n2 : Node),
    strip_flags fuel n = some n2 → goodNode n = true → noFlagNode n2 = true
  | 0, n, n2 => by intro h _; exact Option.noConfusion h
  | fuel + 1, .seq items, n2 => by
    intro h hg
    have h2 : (do
        let items2 ← strip_list_items fuel items
        some (Node.seq items2)) = some n2 := h
    rcases hsf : strip_list_items fuel items with _ | items2
    · rw [hsf] at h2; exact Option.noConfusion h2
    · rw [hsf] at h2
      have h3 : some (Node.seq items2) = some n2 := h2
      simp only [Option.some.injEq] at h3
      rw [← h3]
      exact strip_list_items_noFlag fuel items items2 hsf hg
  | fuel + 1, .map d, n2 => by
    intro h hg
    have h2 : (do
        let d2 ← strip_dict_loop fuel (d.map (fun p => p.1)) d
        some (Node.map d2)) = some n2 := h
    rcases hsf : strip_dict_loop fuel (d.map (fun p => p.1)) d with _ | d2
    · rw [hsf] at h2; exact Option.noConfusion h2
    · rw [hsf] at h2
      have h3 : some (Node.map d2) = some n2 := h2
      simp only [Option.some.injEq] at h3
      rw [← h3]
      show noFlagDict d2 = true
      refine strip_dict_loop_noFlag fuel (d.map (fun p => p.1)) d d2 hsf ?_
      intro p hp
      obtain ⟨h1, h4⟩ := goodDict_mem d p hg hp
      refine ⟨h1, h4, fun hnm => absurd ?_ hnm⟩
      exact List.mem_map_of_mem (fun p => p.1) hp
  | fuel + 1, .null, n2 => by
    intro h _
    have h3 : some Node.null = some n2 := h
    simp only [Option.some.injEq] at h3
    rw [← h3]; rfl
  | fuel + 1, .bool b, n2 => by
    intro h _
    have h3 : some (Node.bool b) = some n2 := h
    simp only [Option.some.injEq] at h3
    rw [← h3]; rfl
  | fuel + 1, .num i, n2 => by
    intro h _
    have h3 : some (Node.num i) = some n2 := h
    simp only [Option.some.injEq] at h3
    rw [← h3]; rfl
  | fuel + 1, .str s0, n2 => by
    intro h _
    have h3 : some (Node.str s0) = some n2 := h
    simp only [Option.some.injEq] at h3
    rw [← h3]; rfl

theorem strip_list_items_noFlag : ∀ (fuel : Nat) (items out : List Node),
    strip_list_items fuel items = some out → goodList items = true → noFlagList out = true
  | 0, items, out => by intro h _; exact Option.noConfusion h
  | fuel + 1, [], out => by
    intro h _
    have h3 : some ([] : List Node) = some out := h
    simp only [Option.some.injEq] at h3
    rw [← h3]; rfl
  | fuel + 1, item :: rest, out => by
    intro h hg
    simp only [goodList, Bool.and_eq_true] at hg
    have hcont : ∀ (item2 : Node), noFlagNode item2 = true →
        (do
          let rest2 ← strip_list_items fuel rest
          some (item2 :: rest2)) = some out → noFlagList out = true := by
      intro item2 hi2 hx
      rcases hr : strip_list_items fuel rest with _ | rest2
      · rw [hr] at hx; exact Option.noConfusion hx
      · rw [hr] at hx
        have h3 : some (item2 :: rest2) = some out := hx
        simp only [Option.some.injEq] at h3
        rw [← h3]
        simp only [noFlagList, Bool.and_eq_true]
        exact ⟨hi2, strip_list_items_noFlag fuel rest rest2 hr hg.2⟩
    cases item with
    | seq l =>
      have h2 : (do
          let item2 ← strip_flags fuel (Node.seq l)
          let rest2 ← strip_list_items fuel rest
          some (item2 :: rest2)) = some out := h
      rcases hsf : strip_flags fuel (Node.seq l) with _ | item2
      · rw [hsf] at h2; exact Option.noConfusion h2
      · rw [hsf] at h2
        exact hcont item2 (strip_flags_noFlag fuel _ item2 hsf hg.1) h2
    | map d0 =>
      have h2 : (do
          let item2 ← strip_flags fuel (Node.map d0)
          let rest2 ← strip_list_items fuel rest
          some (item2 :: rest2)) = some out := h
      rcases hsf : strip_flags fuel (Node.map d0) with _ | item2
      · rw [hsf] at h2; exact Option.noConfusion h2
      · rw [hsf] at h2
        exact hcont item2 (strip_flags_noFlag fuel _ item2 hsf hg.1) h2
    | null => exact hcont Node.null rfl h
    | bool b => exact hcont (Node.bool b) rfl h
    | num i => exact hcont (Node.num i) rfl h
    | str s0 => exact hcont (Node.str s0) rfl h

theorem strip_dict_loop_noFlag : ∀ (fuel : Nat) (keys : List String) (st st' : Dict),
    strip_dict_loop fuel keys st = some st' →
    (∀ p ∈ st, okKey p.1 = true ∧ goodNode p.2 = true ∧
      (p.1 ∉ keys → keyFlagged p.1 = false ∧ noFlagNode p.2 = true)) →
    noFlagDict st' = true
  | 0, keys, st, st' => by intro h _; exact Option.noConfusion h
  | fuel + 1, [], st, st' => by
    intro h hinv
    have h3 : some st = some st' := h
    simp only [Option.some.injEq] at h3
    rw [← h3]
    exact noFlagDict_of_entries st fun p hp =>
      (hinv p hp).2.2 (List.not_mem_nil _)
  | fuel + 1, key_ :: rest, st, st' => by
    intro h hinv
    simp only [strip_dict_loop] at h
    cases hmem : dmem st key_
    · rw [hmem] at h
      simp only [Bool.false_eq_true, if_false] at h
      refine strip_dict_loop_noFlag fuel rest st st' h ?_
      intro p hp
      obtain ⟨h1, h2, h3⟩ := hinv p hp
      refine ⟨h1, h2, fun hnr => h3 ?_⟩
      intro hc
      rcases List.mem_cons.mp hc with he | hm
      · rw [← he] at hmem
        rw [(dmem_iff_mem_keys st p.1).mpr (mem_keys_of_mem hp)] at hmem
        exact Bool.noConfusion hmem
      · exact hnr hm
    · rw [hmem] at h
      simp only [if_true] at h
      rcases hget : dget st key_ with _ | entry
      · rw [dget_none_not_dmem hget] at hmem
        exact Bool.noConfusion hmem
      · rw [hget] at h
        have hpmem : (key_, entry) ∈ st := dget_some_mem st key_ entry hget
        obtain ⟨hok, hgood, _⟩ := hinv (key_, entry) hpmem
        cases hfl : (pyStartsWith key_ "+" || pyStartsWith key_ "!")
        · rw [hfl] at h
          simp only [Bool.false_eq_true, if_false] at h
          have hflF : keyFlagged key_ = false := hfl
          have htrans : ∀ (e2 : Node), noFlagNode e2 = true →
              ∀ p ∈ dset st key_ e2, okKey p.1 = true ∧ goodNode p.2 = true ∧
                (p.1 ∉ rest → keyFlagged p.1 = false ∧ noFlagNode p.2 = true) := by
            intro e2 he2 p hp
            rcases mem_dset st key_ e2 p hp with rfl | ⟨hpst, hpne⟩
            · exact ⟨okKey_of_unflagged hflF, noFlag_good _ he2, fun _ => ⟨hflF, he2⟩⟩
            · obtain ⟨h1, h2, h3⟩ := hinv p hpst
              refine ⟨h1, h2, fun hnr => h3 ?_⟩
              intro hc
              rcases List.mem_cons.mp hc with he | hm
              · exact hpne he
              · exact hnr hm
          cases entry with
          | map d0 =>
            have h2 : (do
                let entry2 ← strip_flags fuel (Node.map d0)
                strip_dict_loop fuel rest (dset st key_ entry2)) = some st' := h
            rcases hsf : strip_flags fuel (Node.map d0) with _ | e2
            · rw [hsf] at h2; exact Option.noConfusion h2
            · rw [hsf] at h2
              have he2 := strip_flags_noFlag fuel _ e2 hsf hgood
              exact strip_dict_loop_noFlag fuel rest _ st' h2 (htrans e2 he2)
          | seq items =>
            have h2 : (do
                let items2 ← strip_list_items fuel items
                strip_dict_loop fuel rest (dset st key_ (Node.seq items2))) = some st' := h
            rcases hsf : strip_list_items fuel items with _ | items2
            · rw [hsf] at h2; exact Option.noConfusion h2
            · rw [hsf] at h2
              have he2 : noFlagNode (Node.seq items2) = true :=
                strip_list_items_noFlag fuel items items2 hsf hgood
              exact strip_dict_loop_noFlag fuel rest _ st' h2 (htrans _ he2)
          | null => exact strip_dict_loop_noFlag fuel rest _ st' h (htrans _ rfl)
          | bool b => exact strip_dict_loop_noFlag fuel rest _ st' h (htrans _ rfl)
          | num i => exact strip_dict_loop_noFlag fuel rest _ st' h (htrans _ rfl)
          | str s0 => exact strip_dict_loop_noFlag fuel rest _ st' h (htrans _ rfl)
        · rw [hfl] at h
          simp only [if_true] at h
          have hflT : keyFlagged key_ = true := hfl
          have hkeyF : keyFlagged (pyDrop key_ 1) = false := okKey_flagged_drop hok hflT
          have htrans : ∀ (e2 : Node), noFlagNode e2 = true →
              ∀ p ∈ dset (ddel (dset st (pyDrop key_ 1) entry) key_) (pyDrop key_ 1) e2,
                okKey p.1 = true ∧ goodNode p.2 = true ∧
                (p.1 ∉ rest → keyFlagged p.1 = false ∧ noFlagNode p.2 = true) := by
            intro e2 he2 p hp
            rcases mem_dset _ _ e2 p hp with rfl | ⟨hpd, hpne⟩
            · exact ⟨okKey_of_unflagged hkeyF, noFlag_good _ he2, fun _ => ⟨hkeyF, he2⟩⟩
            · obtain ⟨hpd2, hpne2⟩ := mem_ddel _ key_ p hpd
              rcases mem_dset st (pyDrop key_ 1) entry p hpd2 with rfl | ⟨hpst, _⟩
              · exact absurd rfl hpne
              · obtain ⟨h1, h2, h3⟩ := hinv p hpst
                refine ⟨h1, h2, fun hnr => h3 ?_⟩
                intro hc
                rcases List.mem_cons.mp hc with he | hm
                · exact hpne2 he
                · exact hnr hm
          cases entry with
          | map d0 =>
            have h2 : (do
                let entry2 ← strip_flags fuel (Node.map d0)
                strip_dict_loop fuel rest
                  (dset (ddel (dset st (pyDrop key_ 1) (Node.map d0)) key_)
                    (pyDrop key_ 1) entry2)) = some st' := h
            rcases hsf : strip_flags fuel (Node.map d0) with _ | e2
            · rw [hsf] at h2; exact Option.noConfusion h2
            · rw [hsf] at h2
              have he2 := strip_flags_noFlag fuel _ e2 hsf hgood
              exact strip_dict_loop_noFlag fuel rest _ st' h2 (htrans e2 he2)
          | seq items =>
            have h2 : (do
                let items2 ← strip_list_items fuel items
                strip_dict_loop fuel rest
                  (dset (ddel (dset st (pyDrop key_ 1) (Node.seq items)) key_)
                    (pyDrop key_ 1) (Node.seq items2))) = some st' := h
            rcases hsf : strip_list_items fuel items with _ | items2
            · rw [hsf] at h2; exact Option.noConfusion h2
            · rw [hsf] at h2
              have he2 : noFlagNode (Node.seq items2) = true :=
                strip_list_items_noFlag fuel items items2 hsf hgood
              exact strip_dict_loop_noFlag fuel rest _ st' h2 (htrans _ he2)
          | null => exact strip_dict_loop_noFlag fuel rest _ st' h (htrans _ rfl)
          | bool b => exact strip_dict_loop_noFlag fuel rest _ st' h (htrans _ rfl)
          | num i => exact strip_dict_loop_noFlag fuel rest _ st' h (htrans _ rfl)
          | str s0 => exact strip_dict_loop_noFlag fuel rest _ st' h (htrans _ rfl)
end

/-! ### Merge output carries no flagged keys (singly-flagged inputs) -/

mutual
theorem merge_settings_noFlag : ∀ (fuel : Nat) (t l m : Dict),
    merge_settings fuel t l = .ok m → goodDict t = true → goodDict l = true →
    noFlagDict m = true
  | 0, t, l, m => by intro h _ _; exact Except.noConfusion h
  | fuel + 1, t, l, m => by
    intro h ht hl
    rcases hloop : merge_loop fuel t t l with e | merged
    · rw [show merge_settings (fuel + 1) t l = (do
          let merged ← merge_loop fuel t t l
          match strip_flags_dict (fuel + 1) merged with
          | some m2 => Except.ok m2
          | none => Except.error MErr.outOfFuel) from rfl, hloop] at h
      exact Except.noConfusion h
    · have hment : ∀ p ∈ merged, okKey p.1 = true ∧ goodNode p.2 = true :=
        merge_loop_noFlag fuel t t l merged hloop ht
          (fun p hp => goodDict_mem t p ht hp)
          (fun p hp => goodDict_mem l p hl hp)
      rw [show merge_settings (fuel + 1) t l = (do
          let merged ← merge_loop fuel t t l
          match strip_flags_dict (fuel + 1) merged with
          | some m2 => Except.ok m2
          | none => Except.error MErr.outOfFuel) from rfl, hloop] at h
      have h2 : (match strip_flags_dict (fuel + 1) merged with
          | some m2 => Except.ok m2
          | none => Except.error MErr.outOfFuel) = Except.ok m := h
      rcases hstrip : strip_flags_dict (fuel + 1) merged with _ | m2
      · rw [hstrip] at h2; exact Except.noConfusion h2
      · rw [hstrip] at h2
        simp only [Except.ok.injEq] at h2
        subst h2
        have hs2 : strip_dict_loop fuel (merged.map (fun p => p.1)) merged = some m2 :=
          hstrip
        refine strip_dict_loop_noFlag fuel _ merged m2 hs2 ?_
        intro p hp
        obtain ⟨h1, h4⟩ := hment p hp
        exact ⟨h1, h4, fun hnm => absurd (List.mem_map_of_mem (fun p => p.1) hp) hnm⟩

theorem merge_loop_noFlag : ∀ (fuel : Nat) (t merged : Dict)
    (rest : List (String × Node)) (mo : Dict),
    merge_loop fuel t merged rest = .ok mo → goodDict t = true →
    (∀ p ∈ merged, okKey p.1 = true ∧ goodNode p.2 = true) →
    (∀ p ∈ rest, okKey p.1 = true ∧ goodNode p.2 = true) →
    ∀ p ∈ mo, okKey p.1 = true ∧ goodNode p.2 = true
  | 0, t, merged, rest, mo => by intro h _ _ _; exact Except.noConfusion h
  | fuel + 1, t, merged, [], mo => by
    intro h _ hminv _
    have h2 : Except.ok (ε := MErr) merged = Except.ok mo := h
    simp only [Except.ok.injEq] at h2
    exact h2 ▸ hminv
  | fuel + 1, t, merged, (key_, entry_l) :: rest, mo => by
    intro h ht hminv hrest
    have hlocal := hrest (key_, entry_l) (List.mem_cons_self _ _)
    have hrest2 : ∀ p ∈ rest, okKey p.1 = true ∧ goodNode p.2 = true :=
      fun p hp => hrest p (List.mem_cons_of_mem _ hp)
    have hplain : ∀ (kk : String) (v : Node), okKey kk = true → goodNode v = true →
        merge_loop fuel t (dset merged kk v) rest = .ok mo →
        ∀ p ∈ mo, okKey p.1 = true ∧ goodNode p.2 = true := by
      intro kk v hk hv hlp
      refine merge_loop_noFlag fuel t _ rest mo hlp ht ?_ hrest2
      intro p hp
      rcases mem_dset merged kk v p hp with rfl | ⟨hpm, _⟩
      · exact ⟨hk, hv⟩
      · exact hminv p hpm
    have hafter : ∀ (kk fl : String) (v : Node), okKey kk = true → goodNode v = true →
        merge_loop fuel t
          (if (fl != "" && dmem (dset merged kk v) (fl ++ kk)) = true
           then ddel (dset merged kk v) (fl ++ kk) else dset merged kk v) rest = .ok mo →
        ∀ p ∈ mo, okKey p.1 = true ∧ goodNode p.2 = true := by
      intro kk fl v hk hv hlp
      cases hc : (fl != "" && dmem (dset merged kk v) (fl ++ kk))
      · rw [hc] at hlp
        simp only [Bool.false_eq_true, if_false] at hlp
        exact hplain kk v hk hv hlp
      · rw [hc] at hlp
        simp only [if_true] at hlp
        refine merge_loop_noFlag fuel t _ rest mo hlp ht ?_ hrest2
        intro p hp
        obtain ⟨hpd, _⟩ := mem_ddel _ _ p hp
        rcases mem_dset merged kk v p hpd with rfl | ⟨hpm, _⟩
        · exact ⟨hk, hv⟩
        · exact hminv p hpm
    simp only [merge_loop] at h
    cases hst : pyStartsWith key_ "!"
    · rw [hst] at h
      simp only [Bool.false_eq_true, if_false] at h
      have hokk : okKey key_ = true := hlocal.1
      rcases hks : is_key_in t key_ with ⟨b, flag⟩
      have hks1 : (is_key_in t key_).1 = b := by rw [hks]
      have hks2 : (is_key_in t key_).2 = flag := by rw [hks]
      rw [hks1, hks2] at h
      cases b
      · exact hplain key_ entry_l hokk hlocal.2 h
      · rcases hgt : dget t (flag ++ key_) with _ | entry_t
        · rw [hgt] at h
          exact Except.noConfusion h
        · rw [hgt] at h
          have hgoodt : goodNode entry_t = true := by
            have hmem := dget_some_mem t (flag ++ key_) entry_t hgt
            exact (goodDict_mem t _ ht hmem).2
          cases entry_t <;> cases entry_l <;>
            try exact hafter key_ flag _ hokk hlocal.2 h
          · next ts ls =>
              cases hfe : flag == "+"
              · rw [hfe] at h
                exact hafter key_ flag (.seq ls) hokk hlocal.2 h
              · rw [hfe] at h
                refine hafter key_ flag (.seq (augment_list ts ls)) hokk ?_ h
                exact goodList_augment ts ls hgoodt hlocal.2
          · next t2 l2 =>
              have h2 : (do
                  let m2 ← merge_settings fuel t2 l2
                  let y ← pure (dset merged key_ (Node.map m2))
                  merge_loop fuel t
                    (if (flag != "" && dmem y (flag ++ key_)) = true
                     then ddel y (flag ++ key_) else y) rest) = Except.ok mo := h
              rcases hm2 : merge_settings fuel t2 l2 with e | m2
              · rw [hm2] at h2
                exact Except.noConfusion h2
              · rw [hm2] at h2
                refine hafter key_ flag (.map m2) hokk ?_ h2
                exact noFlag_good _ (merge_settings_noFlag fuel t2 l2 m2 hm2 hgoodt hlocal.2)
    · rw [hst] at h
      simp only [eq_self_iff_true, if_true] at h
      have hflT : keyFlagged key_ = true := by simp [keyFlagged, hst]
      have hokk : okKey (pyDrop key_ 1) = true :=
        okKey_of_unflagged (okKey_flagged_drop hlocal.1 hflT)
      rcases hks : is_key_in t (pyDrop key_ 1) with ⟨b, flag⟩
      have hks1 : (is_key_in t (pyDrop key_ 1)).1 = b := by rw [hks]
      have hks2 : (is_key_in t (pyDrop key_ 1)).2 = flag := by rw [hks]
      rw [hks1, hks2] at h
      cases b
      · exact hplain (pyDrop key_ 1) entry_l hokk hlocal.2 h
      · exact hafter (pyDrop key_ 1) flag entry_l hokk hlocal.2 h
end

/-- C1 witness: the `{"+x": [1,2]}` / `{"x": [2,3]}` example yields
    `{"x": [1,2,3]}`, and the claim theorem instantiated there. -/
theorem claim_C1_witness :
    merge_settings 20 [("+x", .seq [.num 1, .num 2])] [("x", .seq [.num 2, .num 3])] =
      .ok [("x", .seq [.num 1, .num 2, .num 3])] ∧
    dget [("x", .seq [.num 1, .num 2, .num 3])] "x" =
      some (.seq (augment_list [.num 1, .num 2] [.num 2, .num 3])) :=
  ⟨by rfl,
   (claim_C1 20 [("+x", .seq [.num 1, .num 2])] [("x", .seq [.num 2, .num 3])] "x"
      [.num 1, .num 2] [.num 2, .num 3] [("x", .seq [.num 1, .num 2, .num 3])]
      rfl rfl rfl rfl (by simp) rfl (by simp) rfl rfl rfl rfl (by rfl)).2.2
     (by
       intro i hi
       have he : augment_list [Node.num 1, Node.num 2] [Node.num 2, Node.num 3] =
           [Node.num 1, Node.num 2, Node.num 3] := rfl
       rw [he] at hi
       simp only [List.mem_cons, List.not_mem_nil, or_false] at hi
       rcases hi with rfl | rfl | rfl <;> rfl)⟩

/-- C1 counterexample: two ways the claim fails as stated.  With a Mapping
    item inside the `+`-flagged template sequence, the merge output at `x`
    holds the item in flag-stripped form `{"a": 1}`, not the template's item
    `{"+a": 1}`.  And with a second local key `"+x"` — a local mapping that
    still "holds a Sequence at `x` without a `!` prefix" — the later local
    entry is written under `"+x"` and the terminal strip clobbers `x` with
    it, so the output at `x` is `5`, not an augmented sequence at all. -/
theorem claim_C1_counterexample :
    (merge_settings 20 [("+x", .seq [.map [("+a", .num 1)]])] [("x", .seq [])] =
      .ok [("x", .seq [.map [("a", .num 1)]])] ∧
    Node.map [("a", Node.num 1)] ≠ Node.map [("+a", Node.num 1)]) ∧
    (merge_settings 20 [("+x", .seq [.num 1, .num 2])]
        [("x", .seq [.num 2, .num 3]), ("+x", .num 5)] = .ok [("x", .num 5)] ∧
    Node.num 5 ≠ Node.seq [.num 1, .num 2, .num 3]) :=
  ⟨⟨by rfl, by simp⟩, ⟨by rfl, by simp⟩⟩

/-- C6 (amended): when every key of both input trees, at every depth,
    carries at most one leading flag character, no key of the merge output
    begins with `+` or `!` at any depth. -/
theorem claim_C6 :
    ∀ (fuel : Nat) (t l m : Dict),
      goodDict t = true → goodDict l = true →
      merge_settings fuel t l = .ok m →
      noFlagDict m = true :=
  fun fuel t l m ht hl hm => merge_settings_noFlag fuel t l m hm ht hl

/-- C6 witness: a concrete merge, with every output key unflagged. -/
theorem claim_C6_witness :
    merge_settings 20 [("+x", Node.num 1)] [("y", Node.num 2)] =
      .ok [("y", Node.num 2), ("x", Node.num 1)] ∧
    noFlagDict [("y", Node.num 2), ("x", Node.num 1)] = true :=
  ⟨by rfl, claim_C6 20 [("+x", Node.num 1)] [("y", Node.num 2)]
    [("y", Node.num 2), ("x", Node.num 1)] (by rfl) (by rfl) (by rfl)⟩

/-- C6 counterexample: a doubly-flagged key loses only one flag character
    per strip, so the merge output `{"+y": 1}` has a key beginning with
    `+`, contradicting the claim for arbitrary trees. -/
theorem claim_C6_counterexample :
    merge_settings 5 [("++y", Node.num 1)] [] = .ok [("+y", Node.num 1)] ∧
    pyStartsWith "+y" "+" = true :=
  ⟨by rfl, rfl⟩

/-- C3 witness: a concrete successful dotted-path replacement. -/
theorem claim_C3_witness :
    pyStartsWith "$$a.c" "$$" = true ∧
    do_replace_variables (.str "$$a.c") (.map [("a", .map [("c", .num 7)])]) =
      .ok (.num 7, 1) :=
  ⟨rfl, (claim_C3 (.map [("a", .map [("c", .num 7)])]) "$$a.c" "a.c" rfl rfl).1
    (.num 7) rfl (by simp)⟩

/-! ### A depth-width cost bounding the strip recursion -/

mutual
/-- Cost bounding the fuel `_strip_flags` needs: one per tree level plus the
    width of the level (the strip loop walks the key snapshot), maximised
    over children (stripping never increases it). -/
def dcost : Node → Nat
  | .map d => 1 + d.length + dcostD d
  | .seq items => 1 + items.length + dcostL items
  | _ => 1

def dcostL : List Node → Nat
  | [] => 0
  | x :: xs => max (dcost x) (dcostL xs)

def dcostD : Dict → Nat
  | [] => 0
  | (_, v) :: rest => max (dcost v) (dcostD rest)
end

theorem dcostL_mem : ∀ (items : List Node) (x : Node), x ∈ items → dcost x ≤ dcostL items
  | [], x => by intro hx; exact absurd hx (List.not_mem_nil x)
  | y :: ys, x => by
    intro hx
    rcases List.mem_cons.mp hx with rfl | hx2
    · exact le_max_left _ _
    · exact le_trans (dcostL_mem ys x hx2) (le_max_right _ _)

theorem dcostD_mem : ∀ (d : Dict) (p : String × Node), p ∈ d → dcost p.2 ≤ dcostD d
  | [], p => by intro hp; exact absurd hp (List.not_mem_nil p)
  | q :: rest, p => by
    intro hp
    rcases List.mem_cons.mp hp with rfl | hp2
    · exact le_max_left _ _
    · exact le_trans (dcostD_mem rest p hp2) (le_max_right _ _)

theorem dcostL_le : ∀ (items : List Node) (c : Nat),
    (∀ x ∈ items, dcost x ≤ c) → dcostL items ≤ c
  | [], c => by intro _; simp [dcostL]
  | y :: ys, c => by
    intro h
    simp only [dcostL, max_le_iff]
    exact ⟨h y (List.mem_cons_self _ _),
      dcostL_le ys c fun x hx => h x (List.mem_cons_of_mem _ hx)⟩

theorem dcostD_le : ∀ (d : Dict) (c : Nat),
    (∀ p ∈ d, dcost p.2 ≤ c) → dcostD d ≤ c
  | [], c => by intro _; simp [dcostD]
  | q :: rest, c => by
    intro h
    simp only [dcostD, max_le_iff]
    exact ⟨h q (List.mem_cons_self _ _),
      dcostD_le rest c fun p hp => h p (List.mem_cons_of_mem _ hp)⟩

theorem dcost_pos : ∀ (n : Node), 1 ≤ dcost n
  | .map d => by simp [dcost]; omega
  | .seq items => by simp [dcost]; omega
  | .null => le_refl 1
  | .bool _ => le_refl 1
  | .num _ => le_refl 1
  | .str _ => le_refl 1

theorem len_dsetIn : ∀ (d : Dict) (k : String) (v : Node),
    (dsetIn d k v).length = d.length
  | [], _, _ => rfl
  | p :: rest, k, v => by
    simp only [dsetIn]
    cases hp : p.1 == k
    · simp [len_dsetIn rest k v]
    · simp [len_dsetIn rest k v]

theorem len_dset_le (d : Dict) (k : String) (v : Node) :
    (dset d k v).length ≤ d.length + 1 := by
  cases hm : dmem d k
  · simp [dset, hm]
  · simp [dset, hm, len_dsetIn]

theorem len_dset_of_dmem (d : Dict) (k : String) (v : Node) (hm : dmem d k = true) :
    (dset d k v).length = d.length := by
  simp [dset, hm, len_dsetIn]

theorem len_ddel_le : ∀ (d : Dict) (k : String), (ddel d k).length ≤ d.length
  | [], _ => le_refl 0
  | p :: rest, k => by
    simp only [ddel]
    cases hp : p.1 == k
    · simp only [Bool.false_eq_true, if_false, List.length_cons]
      exact Nat.succ_le_succ (len_ddel_le rest k)
    · simp only [if_true, List.length_cons]
      exact le_trans (len_ddel_le rest k) (Nat.le_succ _)

theorem len_ddel_lt : ∀ (d : Dict) (k : String), dmem d k = true →
    (ddel d k).length < d.length
  | [], k => by intro h; exact absurd h (by simp [dmem])
  | p :: rest, k => by
    intro h
    simp only [ddel]
    cases hp : p.1 == k
    · simp only [dmem, hp, Bool.false_or] at h
      simp only [Bool.false_eq_true, if_false, List.length_cons]
      exact Nat.succ_lt_succ (len_ddel_lt rest k h)
    · simp only [if_true, List.length_cons]
      exact Nat.lt_succ_of_le (len_ddel_le rest k)

theorem flagged_drop_ne (k : String) (h : keyFlagged k = true) : pyDrop k 1 ≠ k := by
  intro he
  have hlen := congrArg (fun s => s.data.length) he
  simp only [pyDrop, List.length_drop] at hlen
  rcases (Bool.or_eq_true _ _).mp h with h2 | h2 <;>
  · cases hk : k.data with
    | nil => rw [pyStartsWith, hk] at h2; simp [List.isPrefixOf] at h2
    | cons c cs => rw [hk] at hlen; simp at hlen


/-! ### Sufficient fuel for the strip pass -/

mutual
theorem strip_flags_ok : ∀ (fuel : Nat) (n : Node), dcost n < fuel →
    ∃ o, strip_flags fuel n = some o ∧ dcost o ≤ dcost n
  | 0, n, h => absurd h (by omega)
  | fuel + 1, .map d, h => by
    have hc : d.length + dcostD d + 1 ≤ fuel := by
      simp only [dcost] at h; omega
    obtain ⟨st2, h1, h2, h3⟩ := strip_dict_loop_ok fuel (d.map (fun p => p.1)) d (dcostD d)
      (fun p hp => dcostD_mem d p hp) (by simpa using hc)
    refine ⟨.map st2, ?_, ?_⟩
    · show (do
        let d2 ← strip_dict_loop fuel (d.map (fun p => p.1)) d
        some (Node.map d2)) = some (Node.map st2)
      rw [h1]
      rfl
    · simp only [dcost]
      have h4 := dcostD_le st2 (dcostD d) h3
      omega
  | fuel + 1, .seq items, h => by
    have hc : items.length + dcostL items + 1 ≤ fuel := by
      simp only [dcost] at h; omega
    obtain ⟨out, h1, h2, h3⟩ := strip_list_items_ok fuel items (dcostL items)
      (fun x hx => dcostL_mem items x hx) hc
    refine ⟨.seq out, ?_, ?_⟩
    · show (do
        let items2 ← strip_list_items fuel items
        some (Node.seq items2)) = some (Node.seq out)
      rw [h1]
      rfl
    · simp only [dcost]
      have h4 := dcostL_le out (dcostL items) h3
      omega
  | _ + 1, .null, _ => ⟨.null, rfl, le_refl _⟩
  | _ + 1, .bool b, _ => ⟨.bool b, rfl, le_refl _⟩
  | _ + 1, .num i, _ => ⟨.num i, rfl, le_refl _⟩
  | _ + 1, .str s0, _ => ⟨.str s0, rfl, le_refl _⟩

theorem strip_list_items_ok : ∀ (fuel : Nat) (items : List Node) (c : Nat),
    (∀ x ∈ items, dcost x ≤ c) → items.length + c + 1 ≤ fuel →
    ∃ out, strip_list_items fuel items = some out ∧ out.length = items.length ∧
      ∀ x ∈ out, dcost x ≤ c
  | 0, items, c, _, hf => absurd hf (by omega)
  | _ + 1, [], c, _, _ => ⟨[], rfl, rfl, by simp⟩
  | fuel + 1, item :: rest, c, hb, hf => by
    have hrest : rest.length + c + 1 ≤ fuel := by
      simp only [List.length_cons] at hf; omega
    obtain ⟨out2, h1, h2, h3⟩ := strip_list_items_ok fuel rest c
      (fun x hx => hb x (List.mem_cons_of_mem _ hx)) hrest
    have hitem : dcost item ≤ c := hb item (List.mem_cons_self _ _)
    have hstrip : dcost item < fuel := by
      have h4 := dcost_pos item
      omega
    have htail : ∀ (o : Node), dcost o ≤ c →
        ∀ x ∈ o :: out2, dcost x ≤ c := by
      intro o ho x hx
      rcases List.mem_cons.mp hx with rfl | hx2
      · exact ho
      · exact h3 x hx2
    cases item with
    | map d0 =>
      obtain ⟨o, ho1, ho2⟩ := strip_flags_ok fuel (.map d0) hstrip
      refine ⟨o :: out2, ?_, by simp [h2], htail o (le_trans ho2 hitem)⟩
      show (do
        let item2 ← strip_flags fuel (Node.map d0)
        let rest2 ← strip_list_items fuel rest
        some (item2 :: rest2)) = some (o :: out2)
      rw [ho1, h1]
      rfl
    | seq l =>
      obtain ⟨o, ho1, ho2⟩ := strip_flags_ok fuel (.seq l) hstrip
      refine ⟨o :: out2, ?_, by simp [h2], htail o (le_trans ho2 hitem)⟩
      show (do
        let item2 ← strip_flags fuel (Node.seq l)
        let rest2 ← strip_list_items fuel rest
        some (item2 :: rest2)) = some (o :: out2)
      rw [ho1, h1]
      rfl
    | null =>
      refine ⟨.null :: out2, ?_, by simp [h2], htail .null hitem⟩
      show (do
        let rest2 ← strip_list_items fuel rest
        some (Node.null :: rest2)) = some (Node.null :: out2)
      rw [h1]
      rfl
    | bool b =>
      refine ⟨.bool b :: out2, ?_, by simp [h2], htail (.bool b) hitem⟩
      show (do
        let rest2 ← strip_list_items fuel rest
        some (Node.bool b :: rest2)) = some (Node.bool b :: out2)
      rw [h1]
      rfl
    | num i =>
      refine ⟨.num i :: out2, ?_, by simp [h2], htail (.num i) hitem⟩
      show (do
        let rest2 ← strip_list_items fuel rest
        some (Node.num i :: rest2)) = some (Node.num i :: out2)
      rw [h1]
      rfl
    | str s0 =>
      refine ⟨.str s0 :: out2, ?_, by simp [h2], htail (.str s0) hitem⟩
      show (do
        let rest2 ← strip_list_items fuel rest
        some (Node.str s0 :: rest2)) = some (Node.str s0 :: out2)
      rw [h1]
      rfl

theorem strip_dict_loop_ok : ∀ (fuel : Nat) (keys : List String) (st : Dict) (c : Nat),
    (∀ p ∈ st, dcost p.2 ≤ c) → keys.length + c + 1 ≤ fuel →
    ∃ st2, strip_dict_loop fuel keys st = some st2 ∧ st2.length ≤ st.length ∧
      ∀ p ∈ st2, dcost p.2 ≤ c
  | 0, keys, st, c, _, hf => absurd hf (by omega)
  | _ + 1, [], st, c, hb, _ => ⟨st, rfl, le_refl _, hb⟩
  | fuel + 1, key_ :: rest, st, c, hb, hf => by
    have hrest : rest.length + c + 1 ≤ fuel := by
      simp only [List.length_cons] at hf; omega
    have hc_lt : c < fuel := by omega
    cases hmem : dmem st key_
    · obtain ⟨st2, h1, h2, h3⟩ := strip_dict_loop_ok fuel rest st c hb hrest
      refine ⟨st2, ?_, h2, h3⟩
      simp only [strip_dict_loop, hmem, Bool.false_eq_true, if_false]
      exact h1
    · rcases hget : dget st key_ with _ | entry
      · rw [dget_none_not_dmem hget] at hmem
        exact Bool.noConfusion hmem
      · have hpmem : (key_, entry) ∈ st := dget_some_mem st key_ entry hget
        have hentry : dcost entry ≤ c := hb (key_, entry) hpmem
        cases hfl : (pyStartsWith key_ "+" || pyStartsWith key_ "!")
        · -- unflagged key: the dict shape is untouched before the write-back
          have hnext : ∀ (e2 : Node), dcost e2 ≤ c →
              ∃ st2, strip_dict_loop fuel rest (dset st key_ e2) = some st2 ∧
                st2.length ≤ st.length ∧ ∀ p ∈ st2, dcost p.2 ≤ c := by
            intro e2 he2
            obtain ⟨st2, h1, h2, h3⟩ := strip_dict_loop_ok fuel rest (dset st key_ e2) c
              (fun p hp => by
                rcases mem_dset st key_ e2 p hp with rfl | ⟨hpm, _⟩
                · exact he2
                · exact hb p hpm) hrest
            exact ⟨st2, h1, le_trans h2 (le_of_eq (len_dset_of_dmem st key_ e2 hmem)), h3⟩
          cases entry with
          | map d0 =>
            obtain ⟨o, ho1, ho2⟩ := strip_flags_ok fuel (.map d0) (lt_of_le_of_lt hentry hc_lt)
            obtain ⟨st2, h1, h2, h3⟩ := hnext o (le_trans ho2 hentry)
            refine ⟨st2, ?_, h2, h3⟩
            simp only [strip_dict_loop, hmem, if_true, hget, hfl, Bool.false_eq_true, if_false]
            rw [ho1]
            exact h1
          | seq items =>
            have hlst : items.length + dcostL items + 1 ≤ fuel := by
              have h5 : dcost (Node.seq items) = 1 + items.length + dcostL items := rfl
              omega
            obtain ⟨out, ho1, ho2len, ho3⟩ := strip_list_items_ok fuel items (dcostL items)
              (fun x hx => dcostL_mem items x hx) hlst
            have hout : dcost (Node.seq out) ≤ c := by
              have h4 := dcostL_le out (dcostL items) ho3
              have h5 : dcost (Node.seq items) = 1 + items.length + dcostL items := rfl
              have h6 : dcost (Node.seq out) = 1 + out.length + dcostL out := rfl
              omega
            obtain ⟨st2, h1, h2, h3⟩ := hnext (.seq out) hout
            refine ⟨st2, ?_, h2, h3⟩
            simp only [strip_dict_loop, hmem, if_true, hget, hfl, Bool.false_eq_true, if_false]
            rw [ho1]
            exact h1
          | null =>
            obtain ⟨st2, h1, h2, h3⟩ := hnext .null hentry
            refine ⟨st2, ?_, h2, h3⟩
            simp only [strip_dict_loop, hmem, if_true, hget, hfl, Bool.false_eq_true, if_false]
            exact h1
          | bool b =>
            obtain ⟨st2, h1, h2, h3⟩ := hnext (.bool b) hentry
            refine ⟨st2, ?_, h2, h3⟩
            simp only [strip_dict_loop, hmem, if_true, hget, hfl, Bool.false_eq_true, if_false]
            exact h1
          | num i =>
            obtain ⟨st2, h1, h2, h3⟩ := hnext (.num i) hentry
            refine ⟨st2, ?_, h2, h3⟩
            simp only [strip_dict_loop, hmem, if_true, hget, hfl, Bool.false_eq_true, if_false]
            exact h1
          | str s0 =>
            obtain ⟨st2, h1, h2, h3⟩ := hnext (.str s0) hentry
            refine ⟨st2, ?_, h2, h3⟩
            simp only [strip_dict_loop, hmem, if_true, hget, hfl, Bool.false_eq_true, if_false]
            exact h1
        · -- flagged key: renamed onto the dropped spelling, old key deleted
          have hflT : keyFlagged key_ = true := hfl
          have hne : pyDrop key_ 1 ≠ key_ := flagged_drop_ne key_ hflT
          have hmem1 : dmem (dset st (pyDrop key_ 1) entry) key_ = true := by
            rw [dmem_dset_ne st key_ (pyDrop key_ 1) entry hne]
            exact hmem
          have hlen1 : (ddel (dset st (pyDrop key_ 1) entry) key_).length ≤ st.length := by
            have h4 := len_ddel_lt (dset st (pyDrop key_ 1) entry) key_ hmem1
            have h5 := len_dset_le st (pyDrop key_ 1) entry
            omega
          have hmemk : dmem (ddel (dset st (pyDrop key_ 1) entry) key_) (pyDrop key_ 1)
              = true := by
            rw [dmem_ddel_ne (dset st (pyDrop key_ 1) entry) key_ (pyDrop key_ 1) hne]
            exact dmem_dset_self st (pyDrop key_ 1) entry
          have hb1 : ∀ p ∈ ddel (dset st (pyDrop key_ 1) entry) key_, dcost p.2 ≤ c := by
            intro p hp
            obtain ⟨hp1, _⟩ := mem_ddel _ key_ p hp
            rcases mem_dset st (pyDrop key_ 1) entry p hp1 with rfl | ⟨hpm, _⟩
            · exact hentry
            · exact hb p hpm
          have hnext : ∀ (e2 : Node), dcost e2 ≤ c →
              ∃ st2, strip_dict_loop fuel rest
                  (dset (ddel (dset st (pyDrop key_ 1) entry) key_) (pyDrop key_ 1) e2)
                    = some st2 ∧
                st2.length ≤ st.length ∧ ∀ p ∈ st2, dcost p.2 ≤ c := by
            intro e2 he2
            obtain ⟨st2, h1, h2, h3⟩ := strip_dict_loop_ok fuel rest
              (dset (ddel (dset st (pyDrop key_ 1) entry) key_) (pyDrop key_ 1) e2) c
              (fun p hp => by
                rcases mem_dset _ (pyDrop key_ 1) e2 p hp with rfl | ⟨hpm, _⟩
                · exact he2
                · exact hb1 p hpm) hrest
            refine ⟨st2, h1, ?_, h3⟩
            rw [len_dset_of_dmem _ (pyDrop key_ 1) e2 hmemk] at h2
            omega
          cases entry with
          | map d0 =>
            obtain ⟨o, ho1, ho2⟩ := strip_flags_ok fuel (.map d0) (lt_of_le_of_lt hentry hc_lt)
            obtain ⟨st2, h1, h2, h3⟩ := hnext o (le_trans ho2 hentry)
            refine ⟨st2, ?_, h2, h3⟩
            simp only [strip_dict_loop, hmem, hget, hfl, eq_self_iff_true, if_true]
            rw [ho1]
            exact h1
          | seq items =>
            have hlst : items.length + dcostL items + 1 ≤ fuel := by
              have h5 : dcost (Node.seq items) = 1 + items.length + dcostL items := rfl
              omega
            obtain ⟨out, ho1, ho2len, ho3⟩ := strip_list_items_ok fuel items (dcostL items)
              (fun x hx => dcostL_mem items x hx) hlst
            have hout : dcost (Node.seq out) ≤ c := by
              have h4 := dcostL_le out (dcostL items) ho3
              have h5 : dcost (Node.seq items) = 1 + items.length + dcostL items := rfl
              have h6 : dcost (Node.seq out) = 1 + out.length + dcostL out := rfl
              omega
            obtain ⟨st2, h1, h2, h3⟩ := hnext (.seq out) hout
            refine ⟨st2, ?_, h2, h3⟩
            simp only [strip_dict_loop, hmem, hget, hfl, eq_self_iff_true, if_true]
            rw [ho1]
            exact h1
          | null =>
            obtain ⟨st2, h1, h2, h3⟩ := hnext .null hentry
            refine ⟨st2, ?_, h2, h3⟩
            simp only [strip_dict_loop, hmem, hget, hfl, eq_self_iff_true, if_true]
            exact h1
          | bool b =>
            obtain ⟨st2, h1, h2, h3⟩ := hnext (.bool b) hentry
            refine ⟨st2, ?_, h2, h3⟩
            simp only [strip_dict_loop, hmem, hget, hfl, eq_self_iff_true, if_true]
            exact h1
          | num i =>
            obtain ⟨st2, h1, h2, h3⟩ := hnext (.num i) hentry
            refine ⟨st2, ?_, h2, h3⟩
            simp only [strip_dict_loop, hmem, hget, hfl, eq_self_iff_true, if_true]
            exact h1
          | str s0 =>
            obtain ⟨st2, h1, h2, h3⟩ := hnext (.str s0) hentry
            refine ⟨st2, ?_, h2, h3⟩
            simp only [strip_dict_loop, hmem, hget, hfl, eq_self_iff_true, if_true]
            exact h1
end

/-! ### Helper lemmas for the merge totality argument -/

theorem is_key_in_mem (t : Dict) (key : String) (h : (is_key_in t key).1 = true) :
    dmem t ((is_key_in t key).2 ++ key) = true := by
  unfold is_key_in at h ⊢
  cases h1 : dmem t ("+" ++ key)
  · rw [h1] at h
    cases h2 : dmem t ("!" ++ key)
    · rw [h2] at h
      cases h3 : dmem t key
      · rw [h3] at h
        simp at h
      · show dmem t ("" ++ key) = true
        rw [str_empty_append]
        exact h3
    · show dmem t ("!" ++ key) = true
      exact h2
  · show dmem t ("+" ++ key) = true
    exact h1

theorem augment_foldl_len : ∀ (ls acc : List Node),
    (ls.foldl
      (fun acc item => if acc.any (fun x => nodeEq x item) then acc else acc ++ [item])
      acc).length ≤ acc.length + ls.length
  | [], acc => by simp
  | item :: rest, acc => by
    simp only [List.foldl]
    cases h : acc.any (fun x => nodeEq x item)
    · simp only [Bool.false_eq_true, if_false]
      have h1 := augment_foldl_len rest (acc ++ [item])
      simp only [List.length_append, List.length_singleton, List.length_cons,
        List.length_nil] at h1 ⊢
      omega
    · simp only [if_true]
      have h1 := augment_foldl_len rest acc
      simp only [List.length_cons]
      omega

theorem augment_foldl_mem : ∀ (ls acc : List Node) (y : Node),
    y ∈ ls.foldl
      (fun acc item => if acc.any (fun x => nodeEq x item) then acc else acc ++ [item])
      acc → y ∈ acc ∨ y ∈ ls
  | [], acc, y => by
    intro hy
    exact Or.inl hy
  | item :: rest, acc, y => by
    intro hy
    simp only [List.foldl] at hy
    cases h : acc.any (fun x => nodeEq x item) <;> rw [h] at hy
    · simp only [Bool.false_eq_true, if_false] at hy
      rcases augment_foldl_mem rest (acc ++ [item]) y hy with h1 | h1
      · rcases List.mem_append.mp h1 with h2 | h2
        · exact Or.inl h2
        · simp only [List.mem_singleton] at h2
          exact Or.inr (h2 ▸ List.mem_cons_self _ _)
      · exact Or.inr (List.mem_cons_of_mem _ h1)
    · simp only [if_true] at hy
      rcases augment_foldl_mem rest acc y hy with h1 | h1
      · exact Or.inl h1
      · exact Or.inr (List.mem_cons_of_mem _ h1)

theorem augment_list_len (ts ls : List Node) :
    (augment_list ts ls).length ≤ ts.length + ls.length :=
  augment_foldl_len ls ts

theorem augment_list_mem (ts ls : List Node) (y : Node) (hy : y ∈ augment_list ts ls) :
    y ∈ ts ∨ y ∈ ls :=
  augment_foldl_mem ls ts y hy

/-! ### Sufficient fuel for the merge -/

mutual
theorem merge_settings_ok : ∀ (fuel : Nat) (t l : Dict),
    dcost (.map t) + dcost (.map l) ≤ fuel →
    ∃ m, merge_settings fuel t l = .ok m ∧ m.length ≤ t.length + l.length ∧
      ∀ p ∈ m, dcost p.2 ≤ dcostD t + dcostD l
  | 0, t, l => by
    intro h
    exfalso
    have h1 := dcost_pos (.map t)
    omega
  | fuel + 1, t, l => by
    intro h
    have h5 : dcost (.map t) = 1 + t.length + dcostD t := rfl
    have h6 : dcost (.map l) = 1 + l.length + dcostD l := rfl
    obtain ⟨merged, h1, h2, h3⟩ := merge_loop_ok fuel t t l (dcostD t) (dcostD l)
      (fun p hp => dcostD_mem t p hp)
      (fun p hp => le_trans (dcostD_mem t p hp) (Nat.le_add_right _ _))
      (fun p hp => dcostD_mem l p hp)
      (by omega)
    obtain ⟨m2, hs1, hs2, hs3⟩ := strip_dict_loop_ok fuel (merged.map (fun p => p.1)) merged
      (dcostD t + dcostD l) h3
      (by
        have h7 : (merged.map (fun p => p.1)).length = merged.length :=
          List.length_map _ _
        omega)
    refine ⟨m2, ?_, by omega, hs3⟩
    show (do
      let mg ← merge_loop fuel t t l
      match strip_flags_dict (fuel + 1) mg with
      | some m => Except.ok m
      | none => Except.error MErr.outOfFuel) = Except.ok m2
    rw [h1]
    show (match strip_flags_dict (fuel + 1) merged with
      | some m => Except.ok m
      | none => Except.error MErr.outOfFuel) = Except.ok m2
    have hsd : strip_flags_dict (fuel + 1) merged = some m2 := hs1
    rw [hsd]

theorem merge_loop_ok : ∀ (fuel : Nat) (t merged : Dict) (rest : List (String × Node))
    (ct cl : Nat),
    (∀ p ∈ t, dcost p.2 ≤ ct) →
    (∀ p ∈ merged, dcost p.2 ≤ ct + cl) →
    (∀ p ∈ rest, dcost p.2 ≤ cl) →
    rest.length + ct + cl + 1 ≤ fuel →
    ∃ m, merge_loop fuel t merged rest = .ok m ∧
      m.length ≤ merged.length + rest.length ∧ ∀ p ∈ m, dcost p.2 ≤ ct + cl
  | 0, t, merged, rest, ct, cl => by
    intro _ _ _ hf
    exact absurd hf (by omega)
  | fuel + 1, t, merged, [], ct, cl => by
    intro _ hM _ _
    exact ⟨merged, rfl, by simp, hM⟩
  | fuel + 1, t, merged, (key_, entry_l) :: rest, ct, cl => by
    intro hT hM hR hf
    have hlocal : dcost entry_l ≤ cl := hR (key_, entry_l) (List.mem_cons_self _ _)
    have hrest2 : ∀ p ∈ rest, dcost p.2 ≤ cl :=
      fun p hp => hR p (List.mem_cons_of_mem _ hp)
    have hf2 : rest.length + ct + cl + 1 ≤ fuel := by
      simp only [List.length_cons] at hf
      omega
    have hplain : ∀ (kk : String) (v : Node), dcost v ≤ ct + cl →
        ∃ m, merge_loop fuel t (dset merged kk v) rest = .ok m ∧
          m.length ≤ merged.length + 1 + rest.length ∧ ∀ p ∈ m, dcost p.2 ≤ ct + cl := by
      intro kk v hv
      obtain ⟨m, h1, h2, h3⟩ := merge_loop_ok fuel t (dset merged kk v) rest ct cl hT
        (fun p hp => by
          rcases mem_dset merged kk v p hp with rfl | ⟨hpm, _⟩
          · exact hv
          · exact hM p hpm) hrest2 hf2
      refine ⟨m, h1, ?_, h3⟩
      have h4 := len_dset_le merged kk v
      omega
    have hafter : ∀ (kk fl : String) (v : Node), dcost v ≤ ct + cl →
        ∃ m, merge_loop fuel t
            (if (fl != "" && dmem (dset merged kk v) (fl ++ kk)) = true
             then ddel (dset merged kk v) (fl ++ kk) else dset merged kk v) rest = .ok m ∧
          m.length ≤ merged.length + 1 + rest.length ∧ ∀ p ∈ m, dcost p.2 ≤ ct + cl := by
      intro kk fl v hv
      cases hc : (fl != "" && dmem (dset merged kk v) (fl ++ kk))
      · simp only [hc, Bool.false_eq_true, if_false]
        exact hplain kk v hv
      · simp only [hc, if_true]
        obtain ⟨m, h1, h2, h3⟩ := merge_loop_ok fuel t
          (ddel (dset merged kk v) (fl ++ kk)) rest ct cl hT
          (fun p hp => by
            obtain ⟨hpd, _⟩ := mem_ddel _ _ p hp
            rcases mem_dset merged kk v p hpd with rfl | ⟨hpm, _⟩
            · exact hv
            · exact hM p hpm) hrest2 hf2
        refine ⟨m, h1, ?_, h3⟩
        have h4 := len_ddel_le (dset merged kk v) (fl ++ kk)
        have h5 := len_dset_le merged kk v
        omega
    cases hst : pyStartsWith key_ "!"
    · -- the local key does not stomp
      rcases hks : is_key_in t key_ with ⟨b, flag⟩
      have hks1 : (is_key_in t key_).1 = b := by rw [hks]
      have hks2 : (is_key_in t key_).2 = flag := by rw [hks]
      have hcommon : ∀ (v : Node), dcost v ≤ ct + cl →
          (∀ m2 : Dict, merge_loop fuel t
              (if (flag != "" && dmem (dset merged key_ v) (flag ++ key_)) = true
               then ddel (dset merged key_ v) (flag ++ key_) else dset merged key_ v) rest
              = .ok m2 →
            merge_loop (fuel + 1) t merged ((key_, entry_l) :: rest) = .ok m2) →
          ∃ m, merge_loop (fuel + 1) t merged ((key_, entry_l) :: rest) = .ok m ∧
            m.length ≤ merged.length + ((key_, entry_l) :: rest).length ∧
            ∀ p ∈ m, dcost p.2 ≤ ct + cl := by
        intro v hv heq
        obtain ⟨m, h1, h2, h3⟩ := hafter key_ flag v hv
        refine ⟨m, heq m h1, ?_, h3⟩
        simp only [List.length_cons]
        omega
      cases b
      · -- key not in template under any spelling: plain write
        obtain ⟨m, h1, h2, h3⟩ := hplain key_ entry_l
          (le_trans hlocal (Nat.le_add_left cl ct))
        refine ⟨m, ?_, ?_, h3⟩
        · simp only [merge_loop, hst, Bool.false_eq_true, if_false, hks1, hks2]
          exact h1
        · simp only [List.length_cons]
          omega
      · -- key present in the template
        have hmemT : dmem t (flag ++ key_) = true := by
          have h4 := is_key_in_mem t key_ (by rw [hks1])
          rw [hks2] at h4
          exact h4
        rcases hgt : dget t (flag ++ key_) with _ | entry_t
        · rw [dget_none_not_dmem hgt] at hmemT
          exact Bool.noConfusion hmemT
        · have hentryT : dcost entry_t ≤ ct :=
            hT _ (dget_some_mem t _ entry_t hgt)
          cases entry_t <;> cases entry_l <;>
            try exact hcommon _ (le_trans hlocal (Nat.le_add_left cl ct))
                  (fun m2 h1 => by
                    simp only [merge_loop, hst, Bool.false_eq_true, if_false, hks1, hks2,
                      eq_self_iff_true, if_true, hgt, Bool.not_false, Bool.true_and]
                    exact h1)
          · next ts ls =>
              cases hfe : flag == "+"
              · exact hcommon _ (le_trans hlocal (Nat.le_add_left cl ct))
                  (fun m2 h1 => by
                    simp only [merge_loop, hst, Bool.false_eq_true, if_false, hks1, hks2,
                      eq_self_iff_true, if_true, hgt, Bool.not_false, Bool.true_and, hfe]
                    exact h1)
              · have haug : dcost (Node.seq (augment_list ts ls)) ≤ ct + cl := by
                  have h4 := augment_list_len ts ls
                  have hmm : ∀ x ∈ augment_list ts ls, dcost x ≤ dcostL ts + dcostL ls := by
                    intro x hx
                    rcases augment_list_mem ts ls x hx with h7 | h7
                    · exact le_trans (dcostL_mem ts x h7) (Nat.le_add_right _ _)
                    · exact le_trans (dcostL_mem ls x h7) (Nat.le_add_left _ _)
                  have h8 := dcostL_le (augment_list ts ls) _ hmm
                  have h9 : dcost (Node.seq ts) = 1 + ts.length + dcostL ts := rfl
                  have h10 : dcost (Node.seq ls) = 1 + ls.length + dcostL ls := rfl
                  have h11 : dcost (Node.seq (augment_list ts ls)) =
                      1 + (augment_list ts ls).length + dcostL (augment_list ts ls) := rfl
                  omega
                exact hcommon _ haug
                  (fun m2 h1 => by
                    simp only [merge_loop, hst, Bool.false_eq_true, if_false, hks1, hks2,
                      eq_self_iff_true, if_true, hgt, Bool.not_false, Bool.true_and, hfe]
                    exact h1)
          · next t2 l2 =>
              have hsub : dcost (.map t2) + dcost (.map l2) ≤ fuel := by omega
              obtain ⟨m2, hm2, hm2len, hm2inv⟩ := merge_settings_ok fuel t2 l2 hsub
              have hm2cost : dcost (Node.map m2) ≤ ct + cl := by
                have h4 : dcostD m2 ≤ dcostD t2 + dcostD l2 := dcostD_le m2 _ hm2inv
                have h7 : dcost (Node.map t2) = 1 + t2.length + dcostD t2 := rfl
                have h8 : dcost (Node.map l2) = 1 + l2.length + dcostD l2 := rfl
                have h9 : dcost (Node.map m2) = 1 + m2.length + dcostD m2 := rfl
                omega
              exact hcommon _ hm2cost
                (fun m3 h1 => by
                  simp only [merge_loop, hst, Bool.false_eq_true, if_false, hks1, hks2,
                    eq_self_iff_true, if_true, hgt]
                  rw [hm2]
                  exact h1)
    · -- the local key stomps: "!"-prefixed
      rcases hks : is_key_in t (pyDrop key_ 1) with ⟨b, flag⟩
      have hks1 : (is_key_in t (pyDrop key_ 1)).1 = b := by rw [hks]
      have hks2 : (is_key_in t (pyDrop key_ 1)).2 = flag := by rw [hks]
      cases b
      · obtain ⟨m, h1, h2, h3⟩ := hplain (pyDrop key_ 1) entry_l
          (le_trans hlocal (Nat.le_add_left cl ct))
        refine ⟨m, ?_, ?_, h3⟩
        · simp only [merge_loop, hst, eq_self_iff_true, if_true, hks1, hks2,
            Bool.false_eq_true, if_false]
          exact h1
        · simp only [List.length_cons]
          omega
      · obtain ⟨m, h1, h2, h3⟩ := hafter (pyDrop key_ 1) flag entry_l
          (le_trans hlocal (Nat.le_add_left cl ct))
        refine ⟨m, ?_, ?_, h3⟩
        · simp only [merge_loop, hst, eq_self_iff_true, if_true, hks1, hks2]
          exact h1
        · simp only [List.length_cons]
          omega
end

/-! ### The merge never raises the key error -/

mutual
theorem merge_settings_nke : ∀ (fuel : Nat) (t l : Dict),
    merge_settings fuel t l ≠ .error .keyError
  | 0, t, l => by
    intro h
    exact MErr.noConfusion (Except.error.inj h)
  | fuel + 1, t, l => by
    intro h
    rcases hml : merge_loop fuel t t l with e | merged
    · have h2 : merge_settings (fuel + 1) t l = .error e := by
        show (do
          let mg ← merge_loop fuel t t l
          match strip_flags_dict (fuel + 1) mg with
          | some m => Except.ok m
          | none => Except.error MErr.outOfFuel) = Except.error e
        rw [hml]
        rfl
      rw [h2] at h
      have he : e = .keyError := Except.error.inj h
      subst he
      exact merge_loop_nke fuel t t l hml
    · have h2 : merge_settings (fuel + 1) t l =
          (match strip_flags_dict (fuel + 1) merged with
           | some m => Except.ok m
           | none => Except.error MErr.outOfFuel) := by
        show (do
          let mg ← merge_loop fuel t t l
          match strip_flags_dict (fuel + 1) mg with
          | some m => Except.ok m
          | none => Except.error MErr.outOfFuel) = _
        rw [hml]
        rfl
      rw [h2] at h
      rcases hs : strip_flags_dict (fuel + 1) merged with _ | m2
      · rw [hs] at h
        exact MErr.noConfusion (Except.error.inj h)
      · rw [hs] at h
        exact Except.noConfusion h

theorem merge_loop_nke : ∀ (fuel : Nat) (t merged : Dict)
    (rest : List (String × Node)),
    merge_loop fuel t merged rest ≠ .error .keyError
  | 0, t, merged, rest => by
    intro h
    exact MErr.noConfusion (Except.error.inj h)
  | fuel + 1, t, merged, [] => by
    intro h
    exact Except.noConfusion h
  | fuel + 1, t, merged, (key_, entry_l) :: rest => by
    intro h
    simp only [merge_loop] at h
    cases hst : pyStartsWith key_ "!" <;> rw [hst] at h
    · simp only [Bool.false_eq_true, if_false, Bool.not_false, Bool.true_and] at h
      rcases hks : is_key_in t key_ with ⟨b, flag⟩
      have hks1 : (is_key_in t key_).1 = b := by rw [hks]
      have hks2 : (is_key_in t key_).2 = flag := by rw [hks]
      rw [hks1, hks2] at h
      cases b
      · simp only [Bool.false_eq_true, if_false] at h
        exact merge_loop_nke fuel t _ rest h
      · simp only [eq_self_iff_true, if_true] at h
        rcases hgt : dget t (flag ++ key_) with _ | entry_t
        · have hT := is_key_in_mem t key_ (by rw [hks1])
          rw [hks2] at hT
          rw [dget_none_not_dmem hgt] at hT
          exact Bool.noConfusion hT
        · rw [hgt] at h
          cases entry_t <;> cases entry_l <;>
            try exact merge_loop_nke fuel t _ rest h
          · next ts ls =>
              cases hfe : flag == "+" <;> rw [hfe] at h <;>
                exact merge_loop_nke fuel t _ rest h
          · next t2 l2 =>
              have h2 : (do
                  let m2 ← merge_settings fuel t2 l2
                  let y ← pure (dset merged key_ (Node.map m2))
                  merge_loop fuel t
                    (if (flag != "" && dmem y (flag ++ key_)) = true
                     then ddel y (flag ++ key_) else y) rest)
                  = Except.error MErr.keyError := h
              rcases hm2 : merge_settings fuel t2 l2 with e | m2
              · rw [hm2] at h2
                have h3 : (Except.error e : Except MErr Dict) =
                    Except.error MErr.keyError := h2
                have he : e = .keyError := Except.error.inj h3
                subst he
                exact merge_settings_nke fuel t2 l2 hm2
              · rw [hm2] at h2
                exact merge_loop_nke fuel t _ rest h2
    · simp only [eq_self_iff_true, if_true] at h
      rcases hks : is_key_in t (pyDrop key_ 1) with ⟨b, flag⟩
      have hks1 : (is_key_in t (pyDrop key_ 1)).1 = b := by rw [hks]
      have hks2 : (is_key_in t (pyDrop key_ 1)).2 = flag := by rw [hks]
      rw [hks1, hks2] at h
      cases b
      · simp only [Bool.false_eq_true, if_false] at h
        exact merge_loop_nke fuel t _ rest h
      · simp only [eq_self_iff_true, if_true] at h
        exact merge_loop_nke fuel t _ rest h
end

/-- C8: the merger is total over well-formed trees.  For every template and
    local dict there is enough fuel (call-stack depth) for `_merge_settings`
    to return normally, and at no fuel does it raise the key error — the
    only exception the model can raise, marking the single unguarded
    `template[local_key]` access of the source.  (`outOfFuel` is the model's
    stand-in for the bounded Python call stack, not a behaviour of the
    source.) -/
theorem claim_C8 : ∀ (t l : Dict),
    (∃ fuel m, merge_settings fuel t l = .ok m) ∧
    (∀ fuel, merge_settings fuel t l ≠ .error .keyError) := by
  intro t l
  refine ⟨?_, fun fuel => merge_settings_nke fuel t l⟩
  obtain ⟨m, h1, _, _⟩ :=
    merge_settings_ok (dcost (.map t) + dcost (.map l)) t l (le_refl _)
  exact ⟨dcost (.map t) + dcost (.map l), m, h1⟩

/-! ### A store model of the source: objects, references, in-place update

The pure model above returns updated values; the Python source instead
mutates `dict` and `list` objects in place (`entry_t.append(item)` inside
the merge, key renames inside `_strip_flags`, `node[key] = replacement`
inside `_do_replace_variables`) while arguments and working copies share
those objects (`template.copy()` and `settings.copy()` are shallow).  The
claims about argument preservation are about exactly this sharing, so they
are settled over a heap: containers live in a store indexed by reference,
scalars are immediate. -/

inductive HVal where
  | null : HVal
  | bool : Bool → HVal
  | num : Int → HVal
  | str : String → HVal
  | ref : Nat → HVal

inductive HObj where
  | hdict : List (String × HVal) → HObj
  | hlist : List HVal → HObj

/-- The heap: object `r` lives at index `r`, allocation appends. -/
abbrev Store := List HObj

/-- Read the object behind a reference. -/
def sget (st : Store) (r : Nat) : Option HObj :=
  st[r]?

/-- Overwrite the object behind a reference (in-place mutation). -/
def sset (st : Store) (r : Nat) (o : HObj) : Store :=
  st.set r o

/-- Python `key in d`, on a heap dict. -/
def hmemD : List (String × HVal) → String → Bool
  | [], _ => false
  | p :: rest, k => p.1 == k || hmemD rest k

/-- Python `d[key]`, on a heap dict. -/
def hgetD : List (String × HVal) → String → Option HVal
  | [], _ => none
  | p :: rest, k => if p.1 == k then some p.2 else hgetD rest k

/-- In-place value update for a present key (position kept). -/
def hsetInD : List (String × HVal) → String → HVal → List (String × HVal)
  | [], _, _ => []
  | p :: rest, k, v =>
    if p.1 == k then (k, v) :: hsetInD rest k v else p :: hsetInD rest k v

/-- Python `d[key] = v`, on a heap dict. -/
def hsetD (d : List (String × HVal)) (k : String) (v : HVal) :
    List (String × HVal) :=
  if hmemD d k then hsetInD d k v else d ++ [(k, v)]

/-- Python `del d[key]`, on a heap dict. -/
def hdelD : List (String × HVal) → String → List (String × HVal)
  | [], _ => []
  | p :: rest, k => if p.1 == k then hdelD rest k else p :: hdelD rest k

mutual
/-- Python `==` through the heap, mirroring `nodeEq`; the fuel stands for
    the recursion the interpreter performs on nested containers. -/
def heqS : Nat → Store → HVal → HVal → Bool
  | 0, _, _, _ => false
  | _ + 1, _, .null, .null => true
  | _ + 1, _, .bool a, .bool b => a == b
  | _ + 1, _, .bool a, .num b => (a && b == 1) || (!a && b == 0)
  | _ + 1, _, .num a, .bool b => (b && a == 1) || (!b && a == 0)
  | _ + 1, _, .num a, .num b => a == b
  | _ + 1, _, .str a, .str b => a == b
  | fuel + 1, st, .ref r, .ref q =>
    match sget st r, sget st q with
    | some (.hlist xs), some (.hlist ys) => heqListS fuel st xs ys
    | some (.hdict xs), some (.hdict ys) =>
      xs.length == ys.length && heqDictS fuel st xs ys
    | _, _ => false
  | _ + 1, _, _, _ => false

def heqListS : Nat → Store → List HVal → List HVal → Bool
  | 0, _, _, _ => false
  | _ + 1, _, [], [] => true
  | fuel + 1, st, x :: xs, y :: ys => heqS fuel st x y && heqListS fuel st xs ys
  | _ + 1, _, _, _ => false

def heqDictS : Nat → Store → List (String × HVal) → List (String × HVal) → Bool
  | 0, _, _, _ => false
  | _ + 1, _, [], _ => true
  | fuel + 1, st, (k, v) :: xs, ys =>
    (match hgetD ys k with
     | some w => heqS fuel st v w
     | none => false) && heqDictS fuel st xs ys
end

mutual
/-- Read the pure tree a heap value denotes (the observable structure of an
    argument, used to compare it before and after a call). -/
def readNode : Nat → Store → HVal → Option Node
  | 0, _, _ => none
  | _ + 1, _, .null => some .null
  | _ + 1, _, .bool b => some (.bool b)
  | _ + 1, _, .num i => some (.num i)
  | _ + 1, _, .str s => some (.str s)
  | fuel + 1, st, .ref r =>
    match sget st r with
    | some (.hdict d) => do
      let d2 ← readDictS fuel st d
      some (.map d2)
    | some (.hlist items) => do
      let l2 ← readListS fuel st items
      some (.seq l2)
    | none => none

def readDictS : Nat → Store → List (String × HVal) → Option Dict
  | 0, _, _ => none
  | _ + 1, _, [] => some []
  | fuel + 1, st, (k, v) :: rest => do
    let n ← readNode fuel st v
    let d2 ← readDictS fuel st rest
    some ((k, n) :: d2)

def readListS : Nat → Store → List HVal → Option (List Node)
  | 0, _, _ => none
  | _ + 1, _, [] => some []
  | fuel + 1, st, v :: rest => do
    let n ← readNode fuel st v
    let l2 ← readListS fuel st rest
    some (n :: l2)
end

mutual
/-- `_strip_flags` on a heap object: the same traversal as `strip_flags`,
    but mutating the dict and list objects in place (the source returns its
    argument, so references never change, only the store does). -/
def stripSRef : Nat → Store → Nat → Option Store
  | 0, _, _ => none
  | fuel + 1, st, r =>
    match sget st r with
    | some (.hlist items) => stripItemsS fuel st items
    | some (.hdict d) => stripDictS fuel st r (d.map (fun p => p.1))
    | none => none

/-- List handling of `_strip_flags` on the heap: recurse into container
    items (the slot write-back `settings[i] = _strip_flags(item)` stores the
    same reference, so only nested objects change). -/
def stripItemsS : Nat → Store → List HVal → Option Store
  | 0, _, _ => none
  | _ + 1, st, [] => some st
  | fuel + 1, st, item :: rest =>
    match item with
    | .ref r2 => do
      let st2 ← stripSRef fuel st r2
      stripItemsS fuel st2 rest
    | _ => stripItemsS fuel st rest

/-- Dict body of `_strip_flags` on the heap: iterate the key snapshot over
    the evolving dict object, rename flagged keys, recurse into container
    entries, write the entry back under the final key. -/
def stripDictS : Nat → Store → Nat → List String → Option Store
  | 0, _, _, _ => none
  | _ + 1, st, _, [] => some st
  | fuel + 1, st, r, key_ :: rest =>
    match sget st r with
    | some (.hdict d) =>
      if hmemD d key_ then
        match hgetD d key_ with
        | none => none
        | some entry => do
          let flagged := pyStartsWith key_ "+" || pyStartsWith key_ "!"
          let key := if flagged then pyDrop key_ 1 else key_
          let d1 := if flagged then hdelD (hsetD d key entry) key_ else d
          let st1 := sset st r (.hdict d1)
          let st2 ←
            match entry with
            | .ref r2 => stripSRef fuel st1 r2
            | _ => some st1
          match sget st2 r with
          | some (.hdict d2) =>
            stripDictS fuel (sset st2 r (.hdict (hsetD d2 key entry))) r rest
          | _ => none
      else stripDictS fuel st r rest
    | _ => none
end

/-- `is_key_in` on a heap dict. -/
def hIsKeyIn (object : List (String × HVal)) (key : String) : Bool × String :=
  if hmemD object ("+" ++ key) then (true, "+")
  else if hmemD object ("!" ++ key) then (true, "!")
  else if hmemD object key then (true, "")
  else (false, "")

/-- The list augmentation of `_merge_settings` on the heap: `entry_t` is a
    reference to the template-side list object, and `entry_t.append(item)`
    mutates it in place. -/
def augmentS : Nat → Store → Nat → List HVal → Option Store
  | _, st, _, [] => some st
  | fuel, st, rt, item :: rest =>
    match sget st rt with
    | some (.hlist ts) =>
      if ts.any (fun x => heqS fuel st x item) then augmentS fuel st rt rest
      else augmentS fuel (sset st rt (.hlist (ts ++ [item]))) rt rest
    | _ => none

/-- The write-back tail every reconciliation branch of the merge loop ends
    with: `merged[key] = v`, then
    `if flag != "" and local_key in merged: del merged[local_key]`. -/
def mergeAssign (st : Store) (mr : Nat) (key local_key flag : String)
    (v : HVal) : Option Store :=
  match sget st mr with
  | some (.hdict md) =>
    let md1 := hsetD md key v
    let md2 :=
      if flag != "" && hmemD md1 local_key then hdelD md1 local_key else md1
    some (sset st mr (.hdict md2))
  | _ => none

mutual
/-- `_merge_settings` on the heap: shallow-copy the template dict into a
    fresh object, run the key loop, strip the merged object in place, and
    return its reference. -/
def mergeS : Nat → Store → Nat → Nat → Option (Store × Nat)
  | 0, _, _, _ => none
  | fuel + 1, st, tr, lr =>
    match sget st tr, sget st lr with
    | some (.hdict td), some (.hdict ld) => do
      let mr := st.length
      let st1 := st ++ [HObj.hdict td]
      let st2 ← mergeLoopS fuel st1 tr mr (ld.map (fun p => p.1)) lr
      let st3 ← stripSRef (fuel + 1) st2 mr
      some (st3, mr)
    | _, _ => none
termination_by structural fuel _ _ _ => fuel

/-- The `for key_ in local` loop of `_merge_settings` on the heap.  Each
    iteration reads the template, local and merged dict objects afresh from
    the store. -/
def mergeLoopS : Nat → Store → Nat → Nat → List String → Nat → Option Store
  | 0, _, _, _, _, _ => none
  | _ + 1, st, _, _, [], _ => some st
  | fuel + 1, st, tr, mr, key_ :: rest, lr =>
    match sget st tr, sget st lr with
    | some (.hdict td), some (.hdict ld) =>
      let local_stomps := pyStartsWith key_ "!"
      let key := if local_stomps then pyDrop key_ 1 else key_
      match hgetD ld key_ with
      | none => none
      | some entry_l =>
        let ks := hIsKeyIn td key
        if ks.1 then
          let flag := ks.2
          let local_key := flag ++ key
          if local_stomps then do
            let st2 ← mergeAssign st mr key local_key flag entry_l
            mergeLoopS fuel st2 tr mr rest lr
          else
            match hgetD td local_key with
            | none => none
            | some entry_t => do
              let add_template := !local_stomps && flag == "+"
              let st2 ←
                match entry_t, entry_l with
                | .ref rt2, .ref rl2 =>
                  (match sget st rt2, sget st rl2 with
                   | some (.hdict _), some (.hdict _) => do
                     let r2 ← mergeS fuel st rt2 rl2
                     mergeAssign r2.1 mr key local_key flag (.ref r2.2)
                   | some (.hlist _), some (.hlist ls) =>
                     if add_template then do
                       let st1 ← augmentS fuel st rt2 ls
                       mergeAssign st1 mr key local_key flag (.ref rt2)
                     else mergeAssign st mr key local_key flag entry_l
                   | _, _ => mergeAssign st mr key local_key flag entry_l)
                | _, _ => mergeAssign st mr key local_key flag entry_l
              mergeLoopS fuel st2 tr mr rest lr
        else
          match sget st mr with
          | some (.hdict md) =>
            mergeLoopS fuel (sset st mr (.hdict (hsetD md key entry_l))) tr mr
              rest lr
          | _ => none
    | _, _ => none
termination_by structural fuel _ _ _ _ _ => fuel
end

/-- `_lookup_variable_in_settings` on the heap: dotted-path descent through
    references, with the same `None`-conflation and `TypeError` cases as the
    pure `lookup_variable_in_settings`. -/
def lookupS (hfuel : Nat) (st : Store) : HVal → List String → Except Unit HVal
  | _, [] => .ok .null
  | v, first_bit :: rest =>
    match v with
    | .ref r =>
      match sget st r with
      | some (.hdict d) =>
        if hmemD d first_bit then
          match hgetD d first_bit with
          | some w => if rest.isEmpty then .ok w else lookupS hfuel st w rest
          | none => .ok .null
        else .ok .null
      | some (.hlist items) =>
        if items.any (fun item => heqS hfuel st item (.str first_bit)) then
          .error ()
        else .ok .null
      | none => .error ()
    | .str s => if strContains s first_bit then .error () else .ok .null
    | _ => .error ()

/-- Errors of the heap resolver model: the unresolved-variable `ValueError`,
    the `TypeError` a malformed path can provoke, and the fuel artefact. -/
inductive RSErr where
  | varNotFound : String → RSErr
  | typeError : RSErr
  | outOfFuel : RSErr

/-- Apply the deferred `node[key] = _replacements[key]` write-backs of
    `_do_replace_variables` to a dict object's entries. -/
def applyRepsD : List (String × HVal) → List (String × HVal) →
    List (String × HVal)
  | [], d => d
  | (k, v) :: rest, d => applyRepsD rest (hsetD d k v)

/-- Apply the deferred `node[i] = _replacements[i]` write-backs to a list
    object's items. -/
def applyRepsL : List (Nat × HVal) → List HVal → List HVal
  | [], l => l
  | (i, v) :: rest, l => applyRepsL rest (l.set i v)

mutual
/-- `_do_replace_variables` on the heap: one pass over a value.  For a
    container the children are processed first (mutating the store), the
    replacements are then written back into the container object itself, and
    the returned value is the same reference. -/
def doReplaceS : Nat → Store → HVal → Nat → Except RSErr (Store × HVal × Nat)
  | 0, _, _, _ => .error .outOfFuel
  | fuel + 1, st, .str s, sr =>
    if pyStartsWith s "$$" then
      let var_name := pyDrop s 2
      match lookupS fuel st (.ref sr) (pySplitDot var_name) with
      | .error _ => .error .typeError
      | .ok .null => .error (.varNotFound var_name)
      | .ok v => .ok (st, v, 1)
    else .ok (st, .str s, 0)
  | fuel + 1, st, .ref r, sr =>
    match sget st r with
    | some (.hdict d) => do
      let t1 ← doReplaceDictS fuel st (d.map (fun p => p.1)) r sr
      if t1.2.2 > 0 then
        match sget t1.1 r with
        | some (.hdict d2) =>
          .ok (sset t1.1 r (.hdict (applyRepsD t1.2.1 d2)), .ref r, t1.2.2)
        | _ => .error .outOfFuel
      else .ok (t1.1, .ref r, 0)
    | some (.hlist items) => do
      let t1 ← doReplaceListS fuel st (List.range items.length) r sr
      if t1.2.2 > 0 then
        match sget t1.1 r with
        | some (.hlist items2) =>
          .ok (sset t1.1 r (.hlist (applyRepsL t1.2.1 items2)), .ref r, t1.2.2)
        | _ => .error .outOfFuel
      else .ok (t1.1, .ref r, 0)
    | none => .error .outOfFuel
  | _ + 1, st, v, _ => .ok (st, v, 0)
termination_by structural fuel _ _ _ => fuel

/-- Dict case of `_do_replace_variables` on the heap: iterate the key
    snapshot, reading each entry from the live object and collecting the
    replacements and change count. -/
def doReplaceDictS : Nat → Store → List String → Nat → Nat →
    Except RSErr (Store × List (String × HVal) × Nat)
  | 0, _, _, _, _ => .error .outOfFuel
  | _ + 1, st, [], _, _ => .ok (st, [], 0)
  | fuel + 1, st, key :: restK, r, sr =>
    match sget st r with
    | some (.hdict d) =>
      match hgetD d key with
      | none => .error .outOfFuel
      | some entry => do
        let t1 ← doReplaceS fuel st entry sr
        let t2 ← doReplaceDictS fuel t1.1 restK r sr
        if t1.2.2 > 0 then
          .ok (t2.1, (key, t1.2.1) :: t2.2.1, t1.2.2 + t2.2.2)
        else .ok (t2.1, t2.2.1, t2.2.2)
    | _ => .error .outOfFuel
termination_by structural fuel _ _ _ _ => fuel

/-- List case of `_do_replace_variables` on the heap, by item index. -/
def doReplaceListS : Nat → Store → List Nat → Nat → Nat →
    Except RSErr (Store × List (Nat × HVal) × Nat)
  | 0, _, _, _, _ => .error .outOfFuel
  | _ + 1, st, [], _, _ => .ok (st, [], 0)
  | fuel + 1, st, i :: restI, r, sr =>
    match sget st r with
    | some (.hlist items) =>
      match items[i]? with
      | none => .error .outOfFuel
      | some entry => do
        let t1 ← doReplaceS fuel st entry sr
        let t2 ← doReplaceListS fuel t1.1 restI r sr
        if t1.2.2 > 0 then
          .ok (t2.1, (i, t1.2.1) :: t2.2.1, t1.2.2 + t2.2.2)
        else .ok (t2.1, t2.2.1, t2.2.2)
    | _ => .error .outOfFuel
termination_by structural fuel _ _ _ _ => fuel
end

/-- The `while changes > 0 and failsafe > 0` loop of `_replace_variables`
    on the heap (`rf` is the per-pass recursion fuel). -/
def replaceLoopS (rf : Nat) : Nat → Store → HVal → Nat →
    Except RSErr (Store × HVal × Nat × Bool)
  | 0, st, result, _ => .ok (st, result, 0, false)
  | failsafe + 1, st, result, sr => do
    let t1 ← doReplaceS rf st result sr
    if t1.2.2 > 0 then do
      let t2 ← replaceLoopS rf failsafe t1.1 t1.2.1 sr
      .ok (t2.1, t2.2.1, t2.2.2.1 + 1, t2.2.2.2)
    else .ok (t1.1, t1.2.1, 1, true)

/-- `_replace_variables` on the heap: shallow-copy the settings dict into a
    fresh working object, then iterate passes (cap 999); lookups of every
    pass go to the original `settings` object. -/
def replaceVarsS (rf : Nat) (st : Store) (sr : Nat) :
    Except RSErr (Store × HVal) :=
  match sget st sr with
  | some (.hdict d) =>
    (replaceLoopS rf 999 (st ++ [HObj.hdict d]) (.ref st.length) sr).map
      (fun t => (t.1, t.2.1))
  | _ => .error .typeError

/-- Initial heap for the merge mutation example: object 0 is the template
    dict `{"+x": <ref 1>}`, object 1 its list `[1]`, object 2 the local dict
    `{"x": <ref 3>}`, object 3 its list `[2]`. -/
def mergeStoreEx : Store :=
  [.hdict [("+x", .ref 1)], .hlist [.num 1],
   .hdict [("x", .ref 3)], .hlist [.num 2]]

/-- Initial heap for the resolve mutation example: object 0 is the settings
    dict `{"a": <ref 1>, "c": 1}`, object 1 its nested dict
    `{"b": "$$c"}`. -/
def resolveStoreEx : Store :=
  [.hdict [("a", .ref 1), ("c", .num 1)], .hdict [("b", .str "$$c")]]

set_option maxHeartbeats 4000000 in
/-- C9 (amended): neither Merge nor Resolve is observably pure.  Merging
    template `{"+x": [1]}` (heap `mergeStoreEx`, template at reference 0)
    with local `{"x": [2]}` appends the new local item to the template's own
    sequence object, so afterwards the template argument reads back as
    `{"+x": [1, 2]}` while the returned merged tree is `{"x": [1, 2]}`.
    Resolving settings `{"a": {"b": "$$c"}, "c": 1}` (heap `resolveStoreEx`,
    settings at reference 0) writes the replacement into the nested dict
    object shared between the shallow working copy and the argument, so
    afterwards the settings argument reads back as `{"a": {"b": 1}, "c": 1}`,
    the same tree the call returns. -/
theorem claim_C9 :
    ((mergeS 20 mergeStoreEx 0 2).map
        (fun t => (readNode 10 t.1 (.ref 0), readNode 10 t.1 (.ref t.2))) =
      some (some (.map [("+x", .seq [.num 1, .num 2])]),
            some (.map [("x", .seq [.num 1, .num 2])]))) ∧
    ((replaceVarsS 10 resolveStoreEx 0).map
        (fun t => (readNode 10 t.1 (.ref 0), readNode 10 t.1 t.2)) =
      .ok (some (.map [("a", .map [("b", .num 1)]), ("c", .num 1)]),
           some (.map [("a", .map [("b", .num 1)]), ("c", .num 1)]))) :=
  ⟨rfl, rfl⟩

set_option maxHeartbeats 4000000 in
/-- C9 counterexample: the claim asserts both arguments read back unchanged
    after Merge and after Resolve.  On the `mergeStoreEx` heap the template
    argument reads `{"+x": [1]}` before the merge and `{"+x": [1, 2]}` after
    it, and on the `resolveStoreEx` heap the settings argument reads
    `{"a": {"b": "$$c"}, "c": 1}` before the resolve and
    `{"a": {"b": 1}, "c": 1}` after it — both differ. -/
theorem claim_C9_counterexample :
    ((mergeS 20 mergeStoreEx 0 2).map (fun t => readNode 10 t.1 (.ref 0)) =
      some (some (.map [("+x", .seq [.num 1, .num 2])]))) ∧
    readNode 10 mergeStoreEx (.ref 0) = some (.map [("+x", .seq [.num 1])]) ∧
    ((replaceVarsS 10 resolveStoreEx 0).map
        (fun t => readNode 10 t.1 (.ref 0)) =
      .ok (some (.map [("a", .map [("b", .num 1)]), ("c", .num 1)]))) ∧
    readNode 10 resolveStoreEx (.ref 0) =
      some (.map [("a", .map [("b", .str "$$c")]), ("c", .num 1)]) ∧
    some (Node.map [("+x", .seq [.num 1, .num 2])]) ≠
      some (Node.map [("+x", .seq [.num 1])]) ∧
    some (Node.map [("a", .map [("b", .num 1)]), ("c", .num 1)]) ≠
      some (Node.map [("a", .map [("b", .str "$$c")]), ("c", .num 1)]) :=
  ⟨rfl, rfl, rfl, rfl, by simp, by simp⟩

/-! ### The strip-pass clobber of a plain key by its flagged spelling -/

theorem strip_loop_nil_eq : ∀ (f : Nat) (d m : Dict),
    strip_dict_loop f [] d = some m → m = d
  | 0, d, m => by
    intro h
    exact Option.noConfusion h
  | f + 1, d, m => by
    intro h
    have h2 : some d = some m := h
    simp only [Option.some.injEq] at h2
    exact h2.symm

/-- Processing an unflagged snapshot key: its entry is strip-processed and
    written back under the same key, and the loop continues. -/
theorem strip_dict_step_unflagged (G : Nat) (keys : List String) (st st' : Dict)
    (k : String) (w : Node)
    (h : strip_dict_loop (G + 1) (k :: keys) st = some st')
    (hget : dget st k = some w)
    (hk1 : pyStartsWith k "+" = false) (hk2 : pyStartsWith k "!" = false) :
    ∃ f w2, strip_flags f w = some w2 ∧
      strip_dict_loop G keys (dset st k w2) = some st' := by
  have hmem : dmem st k = true := dget_some_dmem hget
  simp only [strip_dict_loop, hmem, if_true, hget, hk1, hk2, Bool.or_false,
    Bool.false_eq_true, if_false] at h
  cases w with
  | map d0 =>
    have h2 : (do
        let entry2 ← strip_flags G (Node.map d0)
        strip_dict_loop G keys (dset st k entry2)) = some st' := h
    rcases hsf : strip_flags G (.map d0) with _ | e2
    · rw [hsf] at h2
      exact Option.noConfusion h2
    · rw [hsf] at h2
      exact ⟨G, e2, hsf, h2⟩
  | seq items =>
    have h2 : (do
        let items2 ← strip_list_items G items
        strip_dict_loop G keys (dset st k (Node.seq items2))) = some st' := h
    rcases hsf : strip_list_items G items with _ | items2
    · rw [hsf] at h2
      exact Option.noConfusion h2
    · rw [hsf] at h2
      refine ⟨G + 1, .seq items2, ?_, h2⟩
      show (do
        let its ← strip_list_items G items
        some (Node.seq its)) = some (Node.seq items2)
      rw [hsf]
      rfl
  | null => exact ⟨1, .null, rfl, h⟩
  | bool b => exact ⟨1, .bool b, rfl, h⟩
  | num i => exact ⟨1, .num i, rfl, h⟩
  | str s0 => exact ⟨1, .str s0, rfl, h⟩

/-- Processing a flagged snapshot key `fk`: its value is written over the
    dropped spelling `k`, `fk` is deleted, the value is strip-processed and
    written back under `k`, and the loop continues. -/
theorem strip_dict_step_flagged (G : Nat) (keys : List String) (st st' : Dict)
    (fk k : String) (v : Node)
    (h : strip_dict_loop (G + 1) (fk :: keys) st = some st')
    (hget : dget st fk = some v)
    (hflag : (pyStartsWith fk "+" || pyStartsWith fk "!") = true)
    (hdrop : pyDrop fk 1 = k) :
    ∃ f v2, strip_flags f v = some v2 ∧
      strip_dict_loop G keys (dset (ddel (dset st k v) fk) k v2) = some st' := by
  have hmem : dmem st fk = true := dget_some_dmem hget
  simp only [strip_dict_loop, hmem, if_true, hget, hflag, eq_self_iff_true,
    hdrop] at h
  cases v with
  | map d0 =>
    have h2 : (do
        let entry2 ← strip_flags G (Node.map d0)
        strip_dict_loop G keys
          (dset (ddel (dset st k (Node.map d0)) fk) k entry2)) = some st' := h
    rcases hsf : strip_flags G (.map d0) with _ | e2
    · rw [hsf] at h2
      exact Option.noConfusion h2
    · rw [hsf] at h2
      exact ⟨G, e2, hsf, h2⟩
  | seq items =>
    have h2 : (do
        let items2 ← strip_list_items G items
        strip_dict_loop G keys
          (dset (ddel (dset st k (Node.seq items)) fk) k (Node.seq items2))) =
        some st' := h
    rcases hsf : strip_list_items G items with _ | items2
    · rw [hsf] at h2
      exact Option.noConfusion h2
    · rw [hsf] at h2
      refine ⟨G + 1, .seq items2, ?_, h2⟩
      show (do
        let its ← strip_list_items G items
        some (Node.seq its)) = some (Node.seq items2)
      rw [hsf]
      rfl
  | null => exact ⟨1, .null, rfl, h⟩
  | bool b => exact ⟨1, .bool b, rfl, h⟩
  | num i => exact ⟨1, .num i, rfl, h⟩
  | str s0 => exact ⟨1, .str s0, rfl, h⟩

/-- Plain key first, flagged spelling second (the order the merge produces):
    the strip discards the plain key's value and leaves the once-stripped
    flagged value at the plain key. -/
theorem strip_clobber_plain_first (fuel : Nat) (k fl : String) (v w : Node) (m : Dict)
    (hfl : fl = "+" ∨ fl = "!")
    (hk1 : pyStartsWith k "+" = false) (hk2 : pyStartsWith k "!" = false)
    (h : strip_flags_dict fuel [(k, w), (fl ++ k, v)] = some m) :
    ∃ f v2, strip_flags f v = some v2 ∧ m = [(k, v2)] := by
  have hne : fl ++ k ≠ k := by
    rcases hfl with rfl | rfl
    · exact plus_append_ne k
    · exact bang_append_ne k
  have hflag : (pyStartsWith (fl ++ k) "+" || pyStartsWith (fl ++ k) "!") = true := by
    rcases hfl with rfl | rfl
    · rw [pyStartsWith_plus_append]
      rfl
    · rw [pyStartsWith_bang_append]
      simp
  have hdrop : pyDrop (fl ++ k) 1 = k := by
    rcases hfl with rfl | rfl
    · exact pyDrop_one_plus k
    · exact pyDrop_one_bang k
  have hb1 : ((fl ++ k) == k) = false := beq_eq_false_iff_ne.mpr hne
  have hb2 : (k == (fl ++ k)) = false := beq_eq_false_iff_ne.mpr (Ne.symm hne)
  cases fuel with
  | zero => exact absurd h (by simp [strip_flags_dict])
  | succ F =>
  have h0 : strip_dict_loop F [k, fl ++ k] [(k, w), (fl ++ k, v)] = some m := h
  cases F with
  | zero => exact absurd h0 (by simp [strip_dict_loop])
  | succ G =>
  obtain ⟨f0, w2, hw2, h1⟩ := strip_dict_step_unflagged G [fl ++ k]
    [(k, w), (fl ++ k, v)] m k w h0 (by simp [dget]) hk1 hk2
  have hds1 : dset [(k, w), (fl ++ k, v)] k w2 = [(k, w2), (fl ++ k, v)] := by
    simp [dset, dmem, dsetIn, hb1]
  rw [hds1] at h1
  cases G with
  | zero => exact absurd h1 (by simp [strip_dict_loop])
  | succ H =>
  obtain ⟨f, v2, hsf, h2⟩ := strip_dict_step_flagged H [] [(k, w2), (fl ++ k, v)] m
    (fl ++ k) k v h1 (by simp [dget, hb2]) hflag hdrop
  have hds2 : dset (ddel (dset [(k, w2), (fl ++ k, v)] k v) (fl ++ k)) k v2 =
      [(k, v2)] := by
    simp [dset, dmem, dsetIn, ddel, hb1, hb2]
  rw [hds2] at h2
  exact ⟨f, v2, hsf, strip_loop_nil_eq H _ m h2⟩

/-- Flagged spelling first, plain key second: the plain key's value is still
    discarded, and the surviving value is the flagged value stripped twice
    (once on the rename, once more when the plain key's snapshot entry is
    processed). -/
theorem strip_clobber_flag_first (fuel : Nat) (k fl : String) (v w : Node) (m : Dict)
    (hfl : fl = "+" ∨ fl = "!")
    (hk1 : pyStartsWith k "+" = false) (hk2 : pyStartsWith k "!" = false)
    (h : strip_flags_dict fuel [(fl ++ k, v), (k, w)] = some m) :
    ∃ f f2 v2 v3, strip_flags f v = some v2 ∧ strip_flags f2 v2 = some v3 ∧
      m = [(k, v3)] := by
  have hne : fl ++ k ≠ k := by
    rcases hfl with rfl | rfl
    · exact plus_append_ne k
    · exact bang_append_ne k
  have hflag : (pyStartsWith (fl ++ k) "+" || pyStartsWith (fl ++ k) "!") = true := by
    rcases hfl with rfl | rfl
    · rw [pyStartsWith_plus_append]
      rfl
    · rw [pyStartsWith_bang_append]
      simp
  have hdrop : pyDrop (fl ++ k) 1 = k := by
    rcases hfl with rfl | rfl
    · exact pyDrop_one_plus k
    · exact pyDrop_one_bang k
  have hb1 : ((fl ++ k) == k) = false := beq_eq_false_iff_ne.mpr hne
  have hb2 : (k == (fl ++ k)) = false := beq_eq_false_iff_ne.mpr (Ne.symm hne)
  cases fuel with
  | zero => exact absurd h (by simp [strip_flags_dict])
  | succ F =>
  have h0 : strip_dict_loop F [fl ++ k, k] [(fl ++ k, v), (k, w)] = some m := h
  cases F with
  | zero => exact absurd h0 (by simp [strip_dict_loop])
  | succ G =>
  obtain ⟨f, v2, hsf, h1⟩ := strip_dict_step_flagged G [k] [(fl ++ k, v), (k, w)] m
    (fl ++ k) k v h0 (by simp [dget]) hflag hdrop
  have hds1 : dset (ddel (dset [(fl ++ k, v), (k, w)] k v) (fl ++ k)) k v2 =
      [(k, v2)] := by
    simp [dset, dmem, dsetIn, ddel, hb1, hb2]
  rw [hds1] at h1
  cases G with
  | zero => exact absurd h1 (by simp [strip_dict_loop])
  | succ H =>
  obtain ⟨f2, v3, hsf2, h2⟩ := strip_dict_step_unflagged H [] [(k, v2)] m k v2 h1
    (by simp [dget]) hk1 hk2
  have hds2 : dset [(k, v2)] k v3 = [(k, v3)] := by
    simp [dset, dmem, dsetIn]
  rw [hds2] at h2
  exact ⟨f, f2, v2, v3, hsf, hsf2, strip_loop_nil_eq H _ m h2⟩

/-- C10 (amended): when a Mapping holds both a flagged spelling of a key
    (`+k` or `!k`) and the plain key `k`, the terminal flag-strip pass
    writes the flagged spelling's value over the plain key and deletes the
    flagged spelling, so the plain key's original value is discarded — but
    the surviving value is itself flag-stripped in the process (stripped a
    second time when the flagged spelling precedes the plain key), so the
    plain key ends up holding the flagged value verbatim only when the
    strip leaves that value unchanged, for example a scalar.  In particular
    merging local `{"+x": v}` over template `{"x": w}` yields
    `{"x": strip(v)}`. -/
theorem claim_C10 :
    (∀ (fuel : Nat) (k fl : String) (v w : Node) (m : Dict),
      fl = "+" ∨ fl = "!" →
      pyStartsWith k "+" = false → pyStartsWith k "!" = false →
      (strip_flags_dict fuel [(k, w), (fl ++ k, v)] = some m →
        ∃ f v2, strip_flags f v = some v2 ∧ m = [(k, v2)]) ∧
      (strip_flags_dict fuel [(fl ++ k, v), (k, w)] = some m →
        ∃ f f2 v2 v3, strip_flags f v = some v2 ∧ strip_flags f2 v2 = some v3 ∧
          m = [(k, v3)])) ∧
    (∀ (fuel : Nat) (k : String) (v w : Node) (m : Dict),
      pyStartsWith k "+" = false → pyStartsWith k "!" = false →
      merge_settings fuel [(k, w)] [("+" ++ k, v)] = .ok m →
      ∃ f v2, strip_flags f v = some v2 ∧ m = [(k, v2)]) := by
  refine ⟨fun fuel k fl v w m hfl hk1 hk2 =>
    ⟨strip_clobber_plain_first fuel k fl v w m hfl hk1 hk2,
     strip_clobber_flag_first fuel k fl v w m hfl hk1 hk2⟩, ?_⟩
  intro fuel k v w m hk1 hk2 h
  cases fuel with
  | zero => exact absurd h (by simp [merge_settings])
  | succ F =>
  rcases hml : merge_loop F [(k, w)] [(k, w)] [("+" ++ k, v)] with e | W
  · rw [show merge_settings (F + 1) [(k, w)] [("+" ++ k, v)] = (do
        let merged ← merge_loop F [(k, w)] [(k, w)] [("+" ++ k, v)]
        match strip_flags_dict (F + 1) merged with
        | some m2 => Except.ok m2
        | none => Except.error MErr.outOfFuel) from rfl, hml] at h
    exact Except.noConfusion h
  · rw [show merge_settings (F + 1) [(k, w)] [("+" ++ k, v)] = (do
        let merged ← merge_loop F [(k, w)] [(k, w)] [("+" ++ k, v)]
        match strip_flags_dict (F + 1) merged with
        | some m2 => Except.ok m2
        | none => Except.error MErr.outOfFuel) from rfl, hml] at h
    have hm2 : (match strip_flags_dict (F + 1) W with
        | some m2 => Except.ok m2
        | none => Except.error MErr.outOfFuel) = Except.ok m := h
    rcases hstrip : strip_flags_dict (F + 1) W with _ | m2
    · rw [hstrip] at hm2
      exact Except.noConfusion hm2
    rw [hstrip] at hm2
    simp only [Except.ok.injEq] at hm2
    subst hm2
    have hWval : W = [(k, w), ("+" ++ k, v)] := by
      cases F with
      | zero => exact absurd hml (by simp [merge_loop])
      | succ G =>
        have hpb : pyStartsWith ("+" ++ k) "!" = false := pyStartsWith_plus_append_bang k
        have hd1 : dmem [(k, w)] ("+" ++ ("+" ++ k)) = false := by
          simp [dmem, beq_eq_false_iff_ne.mpr (unflagged_ne_plus k ("+" ++ k) hk1)]
        have hd2 : dmem [(k, w)] ("!" ++ ("+" ++ k)) = false := by
          simp [dmem, beq_eq_false_iff_ne.mpr (unflagged_ne_bang k ("+" ++ k) hk2)]
        have hd3 : dmem [(k, w)] ("+" ++ k) = false := by
          simp [dmem, beq_eq_false_iff_ne.mpr (unflagged_ne_plus k k hk1)]
        have hkin2 : is_key_in [(k, w)] ("+" ++ k) = (false, "") := by
          simp [is_key_in, hd1, hd2, hd3]
        have hstep : merge_loop (G + 1) [(k, w)] [(k, w)] [("+" ++ k, v)] =
            merge_loop G [(k, w)] ([(k, w)] ++ [("+" ++ k, v)]) [] := by
          simp [merge_loop, hpb, hkin2, dset, hd3]
        rw [hstep] at hml
        cases G with
        | zero => exact absurd hml (by simp [merge_loop])
        | succ H =>
          have h3 : Except.ok (ε := MErr) ([(k, w)] ++ [("+" ++ k, v)]) =
              Except.ok W := hml
          simp only [Except.ok.injEq] at h3
          rw [← h3]
          rfl
    rw [hWval] at hstrip
    exact strip_clobber_plain_first (F + 1) k "+" v w m2 (Or.inl rfl) hk1 hk2 hstrip

/-- C10 witness: the merge clobber at template `{"x": 2}` and local
    `{"+x": {"+a": 1}}`, the claim theorem applied there. -/
theorem claim_C10_witness :
    merge_settings 8 [("x", .num 2)] [("+x", .map [("+a", .num 1)])] =
      .ok [("x", .map [("a", .num 1)])] ∧
    (∃ f v2, strip_flags f (Node.map [("+a", .num 1)]) = some v2 ∧
      [("x", Node.map [("a", .num 1)])] = [("x", v2)]) :=
  ⟨by rfl,
   claim_C10.2 8 "x" (.map [("+a", .num 1)]) (.num 2) [("x", .map [("a", .num 1)])]
     rfl rfl (by rfl)⟩

/-- C10 counterexample: with the Mapping value `v = {"+a": 1}`, merging
    local `{"+x": v}` over template `{"x": 2}` yields `{"x": {"a": 1}}` —
    the flagged key inside `v` is stripped on the way — so the output at
    `x` is not `v`, refuting the claim's "yields `{"x": v}`" for generic
    values. -/
theorem claim_C10_counterexample :
    merge_settings 8 [("x", .num 2)] [("+x", .map [("+a", .num 1)])] =
      .ok [("x", .map [("a", .num 1)])] ∧
    Node.map [("a", .num 1)] ≠ Node.map [("+a", .num 1)] :=
  ⟨by rfl, by simp⟩
